import Mathlib

/-!
Verification of the json_to_sql normalization engine.

This file shallowly embeds the core of the repository:
- `JsonStructureAnalyzer` (JsonToSQL/core/analyzer.py),
- `TableBuilder` (core/table_builder.py),
- the adaptive insert-retry loop of `SqlServerTableCreator._insert_entity_data`
  (database/sql_writer.py),
and proves or refutes the frozen behavioural claims about them.

Python dictionaries are modelled as insertion-ordered association lists:
assigning an existing key updates it in place, a new key is appended, and
lookup returns the (unique) first match.  Machine floats never occur in the
claims under scrutiny, so scalar values are strings, integers, booleans and
null.
-/

namespace JsonToSql

/-- Scalar JSON/SQL value (string, int, bool or null).  Python `None` and
JSON `null` are both `vNull`. -/
inductive Val where
  | vStr (s : String)
  | vInt (n : Int)
  | vBool (b : Bool)
  | vNull
  deriving Repr, DecidableEq

/-- A parsed JSON value: scalar, object (ordered fields) or array. -/
inductive Json where
  | scalar (v : Val)
  | obj (fields : List (String × Json))
  | arr (items : List Json)

/-- Lookup in an insertion-ordered dictionary (first match). -/
def dget {κ α : Type} [DecidableEq κ] (k : κ) : List (κ × α) → Option α
  | [] => none
  | (k0, v0) :: rest => if k0 = k then some v0 else dget k rest

/-- Python dict assignment `d[k] = v`: update in place if present,
append otherwise. -/
def dinsert {κ α : Type} [DecidableEq κ] (k : κ) (v : α) : List (κ × α) → List (κ × α)
  | [] => [(k, v)]
  | (k0, v0) :: rest => if k0 = k then (k0, v) :: rest else (k0, v0) :: dinsert k v rest

/-- Apply `f` to the value stored at `k` (no-op when `k` is absent; at every
call site below the key is known to be present, so the no-op branch matches
Python, which would raise `KeyError` there). -/
def dmodify {κ α : Type} [DecidableEq κ] (k : κ) (f : α → α) : List (κ × α) → List (κ × α)
  | [] => []
  | (k0, v0) :: rest => if k0 = k then (k0, f v0) :: rest else (k0, v0) :: dmodify k f rest

/-- Python `d.pop(k)`: return the value at `k` and the dictionary without it,
`none` when the key is missing (Python raises `KeyError`). -/
def popKey {κ α : Type} [DecidableEq κ] (k : κ) : List (κ × α) → Option (α × List (κ × α))
  | [] => none
  | (k0, v0) :: rest =>
      if k0 = k then some (v0, rest)
      else (popKey k rest).map (fun p => (p.1, (k0, v0) :: p.2))

/-- A record: one row, as an ordered field-name/value dictionary. -/
abbrev RecT : Type := List (String × Val)

instance : DecidableEq RecT := inferInstanceAs (DecidableEq (List (String × Val)))

instance : Repr RecT := inferInstanceAs (Repr (List (String × Val)))

instance : Membership (String × Val) RecT := inferInstanceAs (Membership _ (List (String × Val)))

/-- A named collection of record lists (entities, relationships or tables). -/
abbrev TablesT : Type := List (String × List RecT)

instance : DecidableEq TablesT := inferInstanceAs (DecidableEq (List (String × List RecT)))

instance : Repr TablesT := inferInstanceAs (Repr (List (String × List RecT)))

instance : Membership (String × List RecT) TablesT :=
  inferInstanceAs (Membership _ (List (String × List RecT)))

/-! ## JsonStructureAnalyzer (JsonToSQL/core/analyzer.py) -/

/-- Ghost observation: one call of `_init_relationship`, recording the
parent/child pair and whether the relationship name was new at that point.
This is a trace used only to state specification claims; it does not feed
back into the computation. -/
structure Obs where
  parent : String
  child : String
  isNew : Bool
  deriving Repr, DecidableEq

/-- The mutable fields of `JsonStructureAnalyzer`. -/
structure AnalyzerState where
  entities : TablesT
  relationships : TablesT
  entityHierarchy : List (String × String)
  nextTempId : List (String × Int)
  obsLog : List Obs
  deriving Repr, DecidableEq

def emptyAnalyzerState : AnalyzerState := ⟨[], [], [], [], []⟩

/-- `_init_entity`: create an empty record list and a temp-id counter at 1
the first time an entity name is seen. -/
def initEntity (entityName : String) (st : AnalyzerState) : AnalyzerState :=
  if (dget entityName st.entities).isSome then st
  else { st with
          entities := dinsert entityName [] st.entities,
          nextTempId := dinsert entityName 1 st.nextTempId }

/-- `_init_relationship`: create the relationship record list and point the
child to its parent in the hierarchy, but only when the relationship NAME is
new.  The ghost `obsLog` records every call with its novelty flag. -/
def initRelationship (relName parentEntity childEntity : String)
    (st : AnalyzerState) : AnalyzerState :=
  let fresh := (dget relName st.relationships).isNone
  let st := { st with obsLog := st.obsLog ++ [⟨parentEntity, childEntity, fresh⟩] }
  if fresh then
    { st with
        relationships := dinsert relName [] st.relationships,
        entityHierarchy := dinsert childEntity parentEntity st.entityHierarchy }
  else st

/-- `_get_next_temp_id`: read and bump the per-entity counter.  Every call
site initializes the entity first, so the missing-key default 0 is
unreachable (Python would raise `KeyError`). -/
def getNextTempId (entityName : String) (st : AnalyzerState) : Int × AnalyzerState :=
  let t := (dget entityName st.nextTempId).getD 0
  (t, { st with nextTempId := dinsert entityName (t + 1) st.nextTempId })

/-- `self.entities[name].append(record)`.  The key is always present at the
call sites (Python would raise `KeyError` otherwise). -/
def appendRecord (entityName : String) (r : RecT) (st : AnalyzerState) : AnalyzerState :=
  { st with entities := dmodify entityName (fun recs => recs ++ [r]) st.entities }

/-- `self.relationships[name].append(record)`. -/
def appendRelRecord (relName : String) (r : RecT) (st : AnalyzerState) : AnalyzerState :=
  { st with relationships := dmodify relName (fun recs => recs ++ [r]) st.relationships }

/-- The two-key relationship record
`{f"{parent}_temp_id": parentTempId, f"{entity}_temp_id": tempId}`
(a Python dict literal, so a repeated key would collapse). -/
def mkRelRecord (parentEntity : String) (parentTempId : Int)
    (entityName : String) (tempId : Int) : RecT :=
  dinsert (entityName ++ "_temp_id") (Val.vInt tempId)
    (dinsert (parentEntity ++ "_temp_id") (Val.vInt parentTempId) [])

mutual

/-- `_process_field`: nested objects spawn a `{parent}_{field}` entity,
arrays spawn a bare `{field}` entity with one record (and relationship
edge) per item; scalars are handled by the caller. -/
def processField (key : String) (value : Json) (parentEntity : String)
    (parentTempId : Int) (st : AnalyzerState) : AnalyzerState :=
  match value with
  | .obj fields =>
      let entityName := parentEntity ++ "_" ++ key
      let st := initEntity entityName st
      let relName := parentEntity ++ "_" ++ entityName ++ "_rel"
      let st := initRelationship relName parentEntity entityName st
      let p := getNextTempId entityName st
      let q := processObjFields fields entityName p.1 p.2 [("temp_id", Val.vInt p.1)]
      let st := appendRecord entityName q.2 q.1
      appendRelRecord relName (mkRelRecord parentEntity parentTempId entityName p.1) st
  | .arr items =>
      let entityName := key
      let st := initEntity entityName st
      let relName := parentEntity ++ "_" ++ entityName ++ "_rel"
      let st := initRelationship relName parentEntity entityName st
      processArrayItems items entityName parentEntity parentTempId relName st
  | .scalar _ => st

/-- The shared field loop: call `_process_field` on every field in order and
copy scalar field values into the record being built. -/
def processObjFields (fields : List (String × Json)) (entityName : String)
    (tempId : Int) (st : AnalyzerState) (record : RecT) : AnalyzerState × RecT :=
  match fields with
  | [] => (st, record)
  | (k, v) :: rest =>
      let st := processField k v entityName tempId st
      let record :=
        match v with
        | .scalar sv => dinsert k sv record
        | _ => record
      processObjFields rest entityName tempId st record

/-- The array-item loop of `_process_field`: object items recurse fully,
scalar items produce a `{temp_id, value}` record; other items (nested bare
arrays) match no branch and are skipped. -/
def processArrayItems (items : List Json) (entityName parentEntity : String)
    (parentTempId : Int) (relName : String) (st : AnalyzerState) : AnalyzerState :=
  match items with
  | [] => st
  | item :: rest =>
      let st :=
        match item with
        | .obj fields =>
            let p := getNextTempId entityName st
            let q := processObjFields fields entityName p.1 p.2 [("temp_id", Val.vInt p.1)]
            let st := appendRecord entityName q.2 q.1
            appendRelRecord relName (mkRelRecord parentEntity parentTempId entityName p.1) st
        | .scalar sv =>
            let p := getNextTempId entityName st
            let st := appendRecord entityName [("temp_id", Val.vInt p.1), ("value", sv)] p.2
            appendRelRecord relName (mkRelRecord parentEntity parentTempId entityName p.1) st
        | .arr _ => st
      processArrayItems rest entityName parentEntity parentTempId relName st

end

/-- The root-list loop of `analyze`: object items become root records whose
fields are processed; scalar items become `{temp_id, value}` records; no
relationship records are created at the root level. -/
def analyzeListItems (items : List Json) (rootName : String)
    (st : AnalyzerState) : AnalyzerState :=
  match items with
  | [] => st
  | item :: rest =>
      let st :=
        match item with
        | .obj fields =>
            let p := getNextTempId rootName st
            let q := processObjFields fields rootName p.1 p.2 [("temp_id", Val.vInt p.1)]
            appendRecord rootName q.2 q.1
        | .scalar sv =>
            let p := getNextTempId rootName st
            appendRecord rootName [("temp_id", Val.vInt p.1), ("value", sv)] p.2
        | .arr _ => st
      analyzeListItems rest rootName st

/-- `JsonStructureAnalyzer.analyze` starting from a fresh analyzer with the
given root name. -/
def analyze (rootName : String) (jsonData : Json) : AnalyzerState :=
  match jsonData with
  | .obj fields =>
      let st := initEntity rootName emptyAnalyzerState
      let p := getNextTempId rootName st
      let q := processObjFields fields rootName p.1 p.2 [("temp_id", Val.vInt p.1)]
      appendRecord rootName q.2 q.1
  | .arr items =>
      let st := initEntity rootName emptyAnalyzerState
      analyzeListItems items rootName st
  | .scalar _ => emptyAnalyzerState

/-! ## TableBuilder (core/table_builder.py) -/

/-- The eight characters of the suffix `_temp_id`. -/
def tempIdSuffix : List Char := "_temp_id".data

/-- Python `key.endswith('_temp_id')`. -/
def isTempIdKey (k : String) : Bool := tempIdSuffix.isSuffixOf k.data

/-- Python `key.rsplit('_temp_id', 1)[0]` for keys that end with `_temp_id`:
the last occurrence of the pattern is the trailing one, so this is the key
without its last eight characters. -/
def stripTempIdKey (k : String) : String := ⟨k.data.take (k.data.length - 8)⟩

/-- The mutable fields of `TableBuilder`. -/
structure BuilderState where
  entities : TablesT
  relationships : TablesT
  tables : TablesT
  idMaps : List (String × List (Val × Int))
  deriving Repr, DecidableEq

/-- The entity names collected by `_find_leaf_entities` into its `parents`
set: every entity mentioned by a `_temp_id` key of any relationship record
(note: this picks up BOTH sides of each record, not just the parent side). -/
def relParents (relationships : TablesT) : List String :=
  relationships.flatMap (fun e =>
    e.2.flatMap (fun r =>
      r.filterMap (fun kv =>
        if isTempIdKey kv.1 then some (stripTempIdKey kv.1) else none)))

/-- `_find_leaf_entities`: all entity names minus the `parents` set. -/
def findLeafEntities (entities relationships : TablesT) : List String :=
  (entities.map Prod.fst).filter (fun n => !((relParents relationships).contains n))

/-- `_find_child_entities`: scan relationship tables whose first record has a
`{parent}_temp_id` key, and collect every `_temp_id` entity whose key does
not START WITH the parent name. -/
def findChildEntities (relationships : TablesT) (parentEntity : String) : List String :=
  relationships.flatMap (fun e =>
    match e.2 with
    | [] => []
    | r0 :: _ =>
        if (dget (parentEntity ++ "_temp_id") r0).isSome then
          e.2.flatMap (fun r =>
            r.filterMap (fun kv =>
              if isTempIdKey kv.1 && !(parentEntity.data.isPrefixOf kv.1.data) then
                some (stripTempIdKey kv.1)
              else none))
        else [])

/-- Add to a set modelled as a duplicate-free list (`set.add`). -/
def insertIfAbsent (n : String) (l : List String) : List String :=
  if n ∈ l then l else l ++ [n]

/-- `_update_leaf_entities`: every unprocessed entity all of whose children
are processed joins the leaf set. -/
def updateLeafEntities (entities relationships : TablesT)
    (leaves processed : List String) : List String :=
  entities.foldl (fun acc e =>
    if e.1 ∈ processed then acc
    else if (findChildEntities relationships e.1).all (fun c => processed.contains c) then
      insertIfAbsent e.1 acc
    else acc) leaves

/-- The value conversions of `_process_entity`: `True`→1, `False`→0,
`None`/`""`→null, everything else unchanged. -/
def normalizeValue (v : Val) : Val :=
  match v with
  | .vBool true => .vInt 1
  | .vBool false => .vInt 0
  | .vNull => .vNull
  | .vStr s => if s = "" then .vNull else .vStr s
  | .vInt n => .vInt n

/-- The record loop of `_process_entity`: for each record (ids starting at
1) pop `temp_id` (`none` = Python `KeyError` when absent), extend the id
map, and build the table record `{'id': realId, ...normalized fields...}`.
Returns (table records, mutated input records, id map). -/
def processRecords : List RecT → Int → List (Val × Int) →
    Option (List RecT × List RecT × List (Val × Int))
  | [], _, idMap => some ([], [], idMap)
  | r :: rest, realId, idMap => do
      let p ← popKey "temp_id" r
      let idMap := dinsert p.1 realId idMap
      let tableRec := p.2.foldl (fun acc kv => dinsert kv.1 (normalizeValue kv.2) acc)
        [("id", Val.vInt realId)]
      let q ← processRecords rest (realId + 1) idMap
      return (tableRec :: q.1, p.2 :: q.2.1, q.2.2)

/-- `_process_entity`.  The entity name is present at every call site, so
the `getD []` default is unreachable (Python would raise `KeyError`).
The stripped records replace the entity's records in place (the Python code
mutates the shared record dictionaries). -/
def processEntity (entityName : String) (st : BuilderState) : Option BuilderState := do
  let records := (dget entityName st.entities).getD []
  let q ← processRecords records 1 []
  return { st with
            entities := dinsert entityName q.2.1 st.entities,
            tables := dinsert entityName q.1 st.tables,
            idMaps := dinsert entityName q.2.2 st.idMaps }

/-- The `while leaf_entities:` loop of `build_tables`.  The set pop is
modelled as taking the list head.  The fuel only bounds the recursion; every
iteration processes a previously unprocessed entity, so with the fuel chosen
in `buildTables` it never reaches 0 before the leaf set empties. -/
def runLeafLoop : Nat → List String → List String → BuilderState →
    Option (List String × BuilderState)
  | _, [], processed, st => some (processed, st)
  | 0, _ :: _, processed, st => some (processed, st)
  | fuel + 1, name :: leaves, processed, st =>
      if name ∈ processed then
        runLeafLoop fuel
          (updateLeafEntities st.entities st.relationships leaves processed) processed st
      else
        match processEntity name st with
        | none => none
        | some st2 =>
            runLeafLoop fuel
              (updateLeafEntities st2.entities st2.relationships leaves (processed ++ [name]))
              (processed ++ [name]) st2

/-- The `for entity_name in remaining_entities:` loop.  Python iterates a
set in unspecified order; the final per-table contents do not depend on the
order, and we fix key order. -/
def processRemaining (names : List String) (st : BuilderState) : Option BuilderState :=
  match names with
  | [] => some st
  | n :: rest => do processRemaining rest (← processEntity n st)

/-- Resolve one relationship record: each `_temp_id` column is replaced by a
`{entity}_id` column holding `id_maps[entity][temp_id]`; a missing entity or
temp id is a Python `KeyError` (`none`). -/
def resolveRelRecord (idMaps : List (String × List (Val × Int))) (r : RecT) :
    Option RecT :=
  r.foldlM (fun acc kv =>
    if isTempIdKey kv.1 then do
      let m ← dget (stripTempIdKey kv.1) idMaps
      let rid ← dget kv.2 m
      pure (dinsert (stripTempIdKey kv.1 ++ "_id") (Val.vInt rid) acc)
    else pure acc) []

/-- `_process_relationships`: empty relationship lists are skipped, others
become junction tables with resolved ids. -/
def processRelationships (st : BuilderState) : Option BuilderState := do
  let tables ← st.relationships.foldlM (fun (tabs : TablesT) (e : String × List RecT) =>
    if e.2.isEmpty then pure tabs
    else do
      let recs ← e.2.mapM (resolveRelRecord st.idMaps)
      pure (dinsert e.1 recs tabs)) st.tables
  return { st with tables := tables }

/-- `build_tables`: leaf loop, then the remaining entities, then the
relationships.  Returns the full builder state (Python returns
`self.tables`; the mutated `self.entities` matters for the frame claims). -/
def buildTables (entities relationships : TablesT) : Option BuilderState := do
  let st0 : BuilderState := ⟨entities, relationships, [], []⟩
  let leaves := findLeafEntities entities relationships
  let q ← runLeafLoop (entities.length + leaves.length + 1) leaves [] st0
  let remaining := (q.2.entities.map Prod.fst).filter (fun n => !(q.1.contains n))
  let st ← processRemaining remaining q.2
  processRelationships st

/-! ## optimize_tables and the normalizer entry point -/

/-- Python `row.get(col)`: `None` both when the column is missing and when
it is stored as null. -/
def getOrNull (r : RecT) (c : String) : Val := (dget c r).getD Val.vNull

/-- Duplicate-free list of elements, keeping first occurrences and dropping
anything in `seen`. -/
def dedupFirst (seen : List String) : List String → List String
  | [] => []
  | k :: rest => if k ∈ seen then dedupFirst seen rest else k :: dedupFirst (k :: seen) rest

/-- The `all_columns` set of `optimize_tables`: the union of the column
names over all rows.  Python iterates a set in unspecified order; we fix the
order of first appearance (row content never depends on this choice). -/
def unionKeys (rows : List RecT) : List String :=
  dedupFirst [] (rows.flatMap (fun r => r.map Prod.fst))

/-- `non_null_cols` of `optimize_tables`: the columns with at least one
value that is not `None`. -/
def nonNullCols (rows : List RecT) : List String :=
  (unionKeys rows).filter (fun c => rows.any (fun r => decide (getOrNull r c ≠ Val.vNull)))

/-- One table's pass of `optimize_tables`:
`[{col: row.get(col, None) for col in non_null_cols} for row in rows]`. -/
def optimizeRows (rows : List RecT) : List RecT :=
  rows.map (fun r => (nonNullCols rows).map (fun c => (c, getOrNull r c)))

/-- `TableBuilder.optimize_tables`.  The input is a Python dict, so names
are distinct; empty tables are skipped. -/
def optimizeTables : TablesT → TablesT
  | [] => []
  | (name, rows) :: rest =>
      if rows.isEmpty then optimizeTables rest
      else (name, optimizeRows rows) :: optimizeTables rest

/-- `JsonNormalizer.normalize_json_to_nf` on an already-parsed JSON value:
analyze, build tables, prune columns, and return the optimized tables with
the entity hierarchy. -/
def normalizeJsonToNf (jsonData : Json) (rootTableName : String) :
    Option (TablesT × List (String × String)) := do
  let st := analyze rootTableName jsonData
  let b ← buildTables st.entities st.relationships
  return (optimizeTables b.tables, st.entityHierarchy)

/-! ## The adaptive insert-retry loop of
`SqlServerTableCreator._insert_entity_data` (database/sql_writer.py).

The loop talks to the database only through `cursor.execute`; we abstract
the driver as a state machine returning a classified response per insert
attempt.  Column names appear here already stripped of their `[...]`
brackets (the Python code compares `safe_columns` entries with the brackets
removed). -/

/-- Classified outcome of executing the row's INSERT statement, as the
except-clauses of the loop distinguish them. -/
inductive ExecResp where
  | ok
  | progInvalidCol (colName : String)
  | dataTrunc
  | dataConv (v : String)
  | otherErr
  deriving Repr, DecidableEq

/-- An abstract relational-store driver: a response (and next state) per
insert attempt, plus the state effect of the two ALTER statements the loop
can issue. -/
structure SqlDriver (σ : Type) where
  execInsert : σ → ExecResp × σ
  alterAddCol : σ → String → σ
  alterColWidth : σ → String → Option Nat → σ

/-- Observable bookkeeping of one run of the per-row retry loop. -/
structure LoopTrace where
  attemptCount : Int
  resizedColumns : List String
  insertCalls : Nat
  alterLog : List (String × Option Nat)
  addLog : List String
  deriving Repr, DecidableEq

def initTrace : LoopTrace := ⟨0, [], 0, [], []⟩

/-- How the per-row loop can end.  Each `raised*` constructor is one of the
re-raise paths of the Python code; `capExhausted` is
`Exception("Failed to insert data after ... attempts")`. -/
inductive InsertOutcome (σ : Type) where
  | success (s : σ) (tr : LoopTrace)
  | capExhausted (s : σ) (tr : LoopTrace)
  | raisedTypeOnMax (s : σ) (tr : LoopTrace)
  | raisedNoResizable (s : σ) (tr : LoopTrace)
  | raisedLookup (s : σ) (tr : LoopTrace)
  | raisedOther (s : σ) (tr : LoopTrace)
  | fuelOut (s : σ) (tr : LoopTrace)
  deriving Repr, DecidableEq

def maxAttempts : Int := 10

/-- The single-quote character. -/
def quoteChar : Char := Char.ofNat 39

/-- A quoted SQL string literal (the Python code tests
`startswith("'") and endswith("'")`): first and last character are single
quotes. -/
def isQuotedLit (v : String) : Bool :=
  v.data.head? = some quoteChar && v.data.getLast? = some quoteChar

/-- `len(long_val) - 2`: the payload length of a quoted literal. -/
def litLen (v : String) : Int := (v.length : Int) - 2

/-- The escalating width ladder
`255 if n < 255 else 500 if n < 500 else 1000 if n < 1000 else 2000 if n < 2000 else 'max'`
(`none` = `NVARCHAR(MAX)`). -/
def escalateWidth (n : Int) : Option Nat :=
  if n < 255 then some 255
  else if n < 500 then some 500
  else if n < 1000 then some 1000
  else if n < 2000 then some 2000
  else none

/-- First scan of the truncation handler: the column holding the longest
quoted literal among the columns not yet resized (strictly longer than the
running best, which starts at 0). -/
def longestUnresized (cols vals resized : List String) : Int × Option String :=
  (List.zip cols vals).foldl (fun acc cv =>
    if isQuotedLit cv.2 && !(resized.contains cv.1) && decide (litLen cv.2 > acc.1) then
      (litLen cv.2, some cv.1)
    else acc) (0, none)

/-- Fallback scan of the truncation handler: the first column holding any
quoted literal. -/
def firstQuotedCol (cols vals : List String) : Option String :=
  ((List.zip cols vals).find? (fun cv => isQuotedLit cv.2)).map Prod.fst

/-- The `while not success and attempt_count < max_attempts` retry loop of
`_insert_entity_data`, one row, with its three self-healing branches:
unknown column → ADD COLUMN; truncation → widen the longest not-yet-resized
quoted column along the ladder (fallback: pick the first quoted column with
width `'max'`, upon which Python evaluates `'max' < 255` and dies with a
`TypeError`, modelled as `raisedTypeOnMax`; no quoted column at all raises
`Unable to determine which column to resize`); conversion failure → widen
the column at the failing value's index.  Every productive adjustment
decrements `attempt_count` after the increment at the top of the iteration.
The fuel only bounds the model's recursion depth. -/
def insertRowLoop {σ : Type} (drv : SqlDriver σ) (cols vals : List String) :
    Nat → σ → LoopTrace → InsertOutcome σ
  | 0, s, tr => .fuelOut s tr
  | fuel + 1, s, tr =>
      if tr.attemptCount ≥ maxAttempts then .capExhausted s tr
      else
        let tr := { tr with
                      attemptCount := tr.attemptCount + 1,
                      insertCalls := tr.insertCalls + 1 }
        let p := drv.execInsert s
        match p.1 with
        | .ok => .success p.2 tr
        | .progInvalidCol c =>
            let tr := { tr with
                          attemptCount := tr.attemptCount - 1,
                          addLog := tr.addLog ++ [c] }
            insertRowLoop drv cols vals fuel (drv.alterAddCol p.2 c) tr
        | .dataTrunc =>
            let q := longestUnresized cols vals tr.resizedColumns
            match q.2 with
            | some col =>
                let tr := { tr with
                              resizedColumns := insertIfAbsent col tr.resizedColumns,
                              attemptCount := tr.attemptCount - 1,
                              alterLog := tr.alterLog ++ [(col, escalateWidth q.1)] }
                insertRowLoop drv cols vals fuel
                  (drv.alterColWidth p.2 col (escalateWidth q.1)) tr
            | none =>
                match firstQuotedCol cols vals with
                | some c =>
                    .raisedTypeOnMax p.2
                      { tr with
                          resizedColumns := insertIfAbsent c tr.resizedColumns,
                          attemptCount := tr.attemptCount - 1 }
                | none => .raisedNoResizable p.2 tr
        | .dataConv v =>
            match (vals.indexOf? v).bind (fun i => cols.get? i) with
            | none => .raisedLookup p.2 tr
            | some col =>
                let tr := { tr with
                              resizedColumns := insertIfAbsent col tr.resizedColumns,
                              attemptCount := tr.attemptCount - 1,
                              alterLog := tr.alterLog ++ [(col, escalateWidth (v.length : Int))] }
                insertRowLoop drv cols vals fuel
                  (drv.alterColWidth p.2 col (escalateWidth (v.length : Int))) tr
        | .otherErr => .raisedOther p.2 tr

/-- An adversarial driver replaying a fixed response script; when the
script is exhausted every further insert succeeds.  ALTER statements have
no effect on it. -/
def scriptDriver : SqlDriver (List ExecResp) where
  execInsert := fun s =>
    match s with
    | [] => (.ok, [])
    | r :: rest => (r, rest)
  alterAddCol := fun s _ => s
  alterColWidth := fun s _ _ => s

/-- Modelled from the spec: the relational-store collaborator of §6 with
the width semantics of §4.4(b) — the store keeps one current width per
column (`none` = unbounded), an insert fails with a truncation error
whenever some quoted literal is longer than its column's width, with an
unknown-column error when a column is missing, and the two ALTER statements
update the widths.  The concrete SQL Server backend is out of the
repository. -/
def violatingCols (cols vals : List String) (widths : List (String × Option Nat)) :
    List String :=
  (List.zip cols vals).filterMap (fun cv =>
    match dget cv.1 widths with
    | some (some w) => if isQuotedLit cv.2 && decide (litLen cv.2 > (w : Int)) then some cv.1 else none
    | _ => none)

def widthDriver (cols vals : List String) : SqlDriver (List (String × Option Nat)) where
  execInsert := fun s =>
    match cols.find? (fun c => (dget c s).isNone) with
    | some c => (.progInvalidCol c, s)
    | none => if (violatingCols cols vals s).isEmpty then (.ok, s) else (.dataTrunc, s)
  alterAddCol := fun s c => dinsert c (some 255) s
  alterColWidth := fun s c w => dinsert c w s

/-! ## Specification-side definitions used to state the claims -/

mutual

/-- No object anywhere in the value has a field literally named `temp_id`
(such a field would overwrite the analyzer's transient id inside the
record dictionary). -/
def noTempIdJson : Json → Bool
  | .scalar _ => true
  | .obj fields => noTempIdFields fields
  | .arr items => noTempIdItems items

def noTempIdFields : List (String × Json) → Bool
  | [] => true
  | (k, v) :: rest => decide (k ≠ "temp_id") && noTempIdJson v && noTempIdFields rest

def noTempIdItems : List Json → Bool
  | [] => true
  | v :: rest => noTempIdJson v && noTempIdItems rest

end

/-- Modelled from the spec: "an entity is a leaf if it never appears as the
parent side of any relationship record".  In every relationship record the
parent side is the first of its `_temp_id` columns (the analyzer builds
records as `{parent_temp_id: ..., child_temp_id: ...}`). -/
def relParentSides (relationships : TablesT) : List String :=
  relationships.flatMap (fun e =>
    e.2.filterMap (fun r =>
      match r with
      | [] => none
      | kv :: _ => if isTempIdKey kv.1 then some (stripTempIdKey kv.1) else none))

/-- Modelled from the spec: the leaf frontier as §4.2 step 1 words it. -/
def leafEntitiesSpec (entities relationships : TablesT) : List String :=
  (entities.map Prod.fst).filter (fun n => !((relParentSides relationships).contains n))

/-- The parent of the last observation (any call of `_init_relationship`)
that names the given child entity — the reading of "last write wins" in the
claim under scrutiny. -/
def lastObservedParent (log : List Obs) (c : String) : Option String :=
  ((log.filter (fun o => decide (o.child = c))).getLast?).map Obs.parent

/-- The parent of the last observation of the child whose relationship NAME
was new at that moment — what the code actually stores. -/
def lastNewObservedParent (log : List Obs) (c : String) : Option String :=
  ((log.filter (fun o => decide (o.child = c) && o.isNew)).getLast?).map Obs.parent

/-! ## Concrete inputs used by the scenario claims -/

/-- Scenario B input `{"items": [1,2,3]}`. -/
def jsonScenB : Json :=
  .obj [("items", .arr [.scalar (.vInt 1), .scalar (.vInt 2), .scalar (.vInt 3)])]

/-- Scenario A input `{"a": 1, "b": {"c": 2}}`. -/
def jsonScenA : Json :=
  .obj [("a", .scalar (.vInt 1)), ("b", .obj [("c", .scalar (.vInt 2))])]

/-- A JSON object carrying a field literally named `temp_id` next to a
nested object. -/
def jsonTempIdField : Json :=
  .obj [("temp_id", .scalar (.vStr "x")), ("b", .obj [("c", .scalar (.vInt 1))])]

/-- Child entity `s` is observed under parent `k`, then `m`, then `k`
again: three same-named arrays nested under distinct objects. -/
def jsonSharedChild : Json :=
  .obj [("a", .obj [("k", .arr [.obj [("s", .arr [.scalar (.vInt 1)])]])]),
        ("b", .obj [("m", .arr [.obj [("s", .arr [.scalar (.vInt 2)])]])]),
        ("c", .obj [("k", .arr [.obj [("s", .arr [.scalar (.vInt 3)])]])])]

/-! ## Scenario theorems -/

/-- C1: for the input `{"items": [1,2,3]}` with root name `root`,
normalization (analyze, then build_tables, then optimize_tables) produces
table `root` = [{id:1}], table `items` =
[{id:1,value:1},{id:2,value:2},{id:3,value:3}] and junction
`root_items_rel` with exactly the three rows {root_id:1, items_id:k} for
k = 1, 2, 3. -/
theorem scenarioB_normalization :
    normalizeJsonToNf jsonScenB "root" =
      some ([("root", [[("id", Val.vInt 1)]]),
             ("items",
              [[("id", Val.vInt 1), ("value", Val.vInt 1)],
               [("id", Val.vInt 2), ("value", Val.vInt 2)],
               [("id", Val.vInt 3), ("value", Val.vInt 3)]]),
             ("root_items_rel",
              [[("root_id", Val.vInt 1), ("items_id", Val.vInt 1)],
               [("root_id", Val.vInt 1), ("items_id", Val.vInt 2)],
               [("root_id", Val.vInt 1), ("items_id", Val.vInt 3)]])],
            [("items", "root")]) := rfl

/-- C7: for the input `{"a": 1, "b": {"c": 2}}` with root name `root`,
normalization produces exactly the tables `root` = [{id:1, a:1}],
`root_b` = [{id:1, c:2}] and junction `root_root_b_rel` =
[{root_id:1, root_b_id:1}]. -/
theorem scenarioA_normalization :
    normalizeJsonToNf jsonScenA "root" =
      some ([("root", [[("id", Val.vInt 1), ("a", Val.vInt 1)]]),
             ("root_b", [[("id", Val.vInt 1), ("c", Val.vInt 2)]]),
             ("root_root_b_rel",
              [[("root_id", Val.vInt 1), ("root_b_id", Val.vInt 1)]])],
            [("root_b", "root")]) := rfl

/-- C2 (code bug, evaluation): on the entities/relationships produced by
the analyzer for Scenario B, `_find_leaf_entities` returns the empty set,
although `items` never appears on the parent side of any relationship
record and the docstring promises the entities that have no children (the
spec-worded frontier is exactly `["items"]`).  The cause: the `parents` set
is filled from EVERY `_temp_id` key of every record, i.e. from both the
parent and the child side. -/
theorem findLeafEntities_scenarioB_eval :
    findLeafEntities (analyze "root" jsonScenB).entities
        (analyze "root" jsonScenB).relationships = [] ∧
    leafEntitiesSpec (analyze "root" jsonScenB).entities
        (analyze "root" jsonScenB).relationships = ["items"] :=
  ⟨rfl, rfl⟩

/-- C9 (counterexample): a JSON object field literally named `temp_id`
overwrites the analyzer's transient id inside the record dictionary, so the
temp id referenced by the relationship record is no longer recorded and the
id-map lookup of `_process_relationships` fails with a missing key:
`build_tables` fails on `{"temp_id": "x", "b": {"c": 1}}`. -/
theorem junction_resolution_fails_on_temp_id_field :
    buildTables (analyze "root" jsonTempIdField).entities
      (analyze "root" jsonTempIdField).relationships = none := rfl

/-- C6 (counterexample): with child entity `s` observed under parent `k`,
then `m`, then `k` again, the hierarchy stores `m`, not the parent `k` of
the last observation: `_init_relationship` writes the hierarchy only when
the relationship NAME is new, and `k_s_rel` already exists at the third
observation. -/
theorem hierarchy_not_last_observation_counterexample :
    lastObservedParent (analyze "root" jsonSharedChild).obsLog "s" = some "k" ∧
    dget "s" (analyze "root" jsonSharedChild).entityHierarchy = some "m" ∧
    dget "s" (analyze "root" jsonSharedChild).entityHierarchy ≠
      lastObservedParent (analyze "root" jsonSharedChild).obsLog "s" :=
  ⟨rfl, rfl, by decide⟩

/-! ## Retry-loop theorems -/

/-- A driver script of fifteen retriable conversion failures. -/
def convScript : List ExecResp := List.replicate 15 (.dataConv "\x27v\x27")

/-- C4 (code bug, evaluation): fifteen consecutive retriable failures on one
row do not exhaust the attempt cap — each handled failure decrements
`attempt_count` right after the increment, so the counter never advances:
the loop performs 16 insert attempts (six beyond `max_attempts = 10`),
finishes with `attempt_count = 1`, and never raises
`Failed to insert data after 10 attempts`. -/
theorem insertRetry_cap_never_triggers_eval :
    insertRowLoop scriptDriver ["A"] ["\x27v\x27"] 20 convScript initTrace =
      InsertOutcome.success []
        { attemptCount := 1, resizedColumns := ["A"], insertCalls := 16,
          alterLog := List.replicate 15 ("A", some 255), addLog := [] } := rfl

/-- A 400-character payload in a quoted SQL literal. -/
def litA : String := "\x27" ++ String.mk (List.replicate 400 'a') ++ "\x27"

/-- A 300-character payload in a quoted SQL literal. -/
def litB : String := "\x27" ++ String.mk (List.replicate 300 'b') ++ "\x27"

/-- Column `A` is already 500 wide (fits its 400-character value), column
`B` is 255 wide and its 300-character value exceeds it. -/
def widthsAB : List (String × Option Nat) := [("A", some 500), ("B", some 255)]

set_option maxRecDepth 40000 in
/-- C5 (counterexample): with only column `B` exceeding its width, the
truncation handler still widens `A` first (it always picks the column with
the longest not-yet-resized quoted literal, not the offending one), and the
row needs two width-escalation retries — three insert attempts — before it
succeeds; in particular no run exists in which the offending column `B` is
the only column widened and exactly one escalation retry happens. -/
theorem widthEscalation_two_retries_counterexample :
    violatingCols ["A", "B"] [litA, litB] widthsAB = ["B"] ∧
    insertRowLoop (widthDriver ["A", "B"] [litA, litB]) ["A", "B"]
        [litA, litB] 10 widthsAB initTrace =
      InsertOutcome.success [("A", some 500), ("B", some 500)]
        { attemptCount := 1, resizedColumns := ["A", "B"], insertCalls := 3,
          alterLog := [("A", some 500), ("B", some 500)], addLog := [] } ∧
    ¬ ∃ (s : List (String × Option Nat)) (tr : LoopTrace),
        insertRowLoop (widthDriver ["A", "B"] [litA, litB]) ["A", "B"]
            [litA, litB] 10 widthsAB initTrace = InsertOutcome.success s tr ∧
        tr.alterLog.map Prod.fst = ["B"] ∧ tr.insertCalls = 2 := by
  refine ⟨rfl, rfl, ?_⟩
  rintro ⟨s, tr, heq, hlog, hcalls⟩
  rw [show insertRowLoop (widthDriver ["A", "B"] [litA, litB]) ["A", "B"]
        [litA, litB] 10 widthsAB initTrace =
      InsertOutcome.success [("A", some 500), ("B", some 500)]
        { attemptCount := 1, resizedColumns := ["A", "B"], insertCalls := 3,
          alterLog := [("A", some 500), ("B", some 500)], addLog := [] } from rfl] at heq
  simp only [InsertOutcome.success.injEq] at heq
  rw [← heq.2] at hcalls
  simp at hcalls

/-! ## Column pruning: supporting lemmas -/

theorem mem_dedupFirst {seen l : List String} {x : String} :
    x ∈ dedupFirst seen l ↔ x ∈ l ∧ x ∉ seen := by
  induction l generalizing seen with
  | nil => simp [dedupFirst]
  | cons k rest ih =>
      by_cases hk : k ∈ seen
      · rw [dedupFirst, if_pos hk, ih]
        by_cases hxk : x = k
        · subst hxk; simp [hk]
        · simp [List.mem_cons, hxk]
      · rw [dedupFirst, if_neg hk]
        by_cases hxk : x = k
        · subst hxk; simp [hk]
        · simp [List.mem_cons, hxk, ih]

theorem nodup_dedupFirst (seen l : List String) : (dedupFirst seen l).Nodup := by
  induction l generalizing seen with
  | nil => simp [dedupFirst]
  | cons k rest ih =>
      by_cases hk : k ∈ seen
      · simpa [dedupFirst, if_pos hk] using ih seen
      · rw [dedupFirst, if_neg hk]
        refine List.Nodup.cons ?_ (ih (k :: seen))
        intro hmem
        exact (mem_dedupFirst.mp hmem).2 (List.mem_cons_self k seen)

theorem dedupFirst_eq_nil {seen l : List String} (h : ∀ x ∈ l, x ∈ seen) :
    dedupFirst seen l = [] := by
  induction l with
  | nil => rfl
  | cons k rest ih =>
      have hk : k ∈ seen := h k (List.mem_cons_self _ _)
      simp only [dedupFirst, if_pos hk]
      exact ih (fun x hx => h x (List.mem_cons_of_mem _ hx))

theorem dedupFirst_append_left {L M seen : List String} (hnd : L.Nodup)
    (hseen : ∀ x ∈ L, x ∉ seen) (hM : ∀ x ∈ M, x ∈ L ∨ x ∈ seen) :
    dedupFirst seen (L ++ M) = L := by
  induction L generalizing seen with
  | nil =>
      simp only [List.nil_append]
      exact dedupFirst_eq_nil (fun x hx => (hM x hx).resolve_left (by simp))
  | cons k L ih =>
      have hk : k ∉ seen := hseen k (List.mem_cons_self _ _)
      simp only [List.cons_append, dedupFirst, if_neg hk]
      congr 1
      refine ih hnd.of_cons ?_ ?_
      · intro x hx
        simp only [List.mem_cons, not_or]
        exact ⟨fun hxy => (List.nodup_cons.mp hnd).1 (hxy ▸ hx),
               hseen x (List.mem_cons_of_mem _ hx)⟩
      · intro x hx
        rcases hM x hx with h | h
        · rcases List.mem_cons.mp h with rfl | h
          · exact Or.inr (List.mem_cons_self _ _)
          · exact Or.inl h
        · exact Or.inr (List.mem_cons_of_mem _ h)

theorem dget_eq_some_mem_keys {κ α : Type} [DecidableEq κ] {c : κ}
    {r : List (κ × α)} {v : α} (h : dget c r = some v) : c ∈ r.map Prod.fst := by
  induction r with
  | nil => simp [dget] at h
  | cons kv rest ih =>
      by_cases hk : kv.1 = c
      · simp [hk]
      · simp only [dget, if_neg hk] at h
        simpa using Or.inr (ih h)

theorem dget_map_graph {α : Type} (L : List String) (f : String → α) (c : String) :
    dget c (L.map (fun x => (x, f x))) = if c ∈ L then some (f c) else none := by
  induction L with
  | nil => simp [dget]
  | cons k rest ih =>
      by_cases hk : k = c
      · subst hk; simp [dget, ih]
      · simp only [List.map_cons, dget, if_neg hk, ih, List.mem_cons]
        by_cases hc : c ∈ rest
        · simp [hc, Ne.symm hk]
        · simp [hc, Ne.symm hk]

theorem mem_unionKeys {rows : List RecT} {c : String} :
    c ∈ unionKeys rows ↔ ∃ r ∈ rows, c ∈ List.map Prod.fst r := by
  simp only [unionKeys, mem_dedupFirst, List.mem_flatMap, List.not_mem_nil,
    not_false_iff, and_true]

theorem getOrNull_ne_null_mem {r : RecT} {c : String}
    (h : getOrNull r c ≠ Val.vNull) : c ∈ List.map Prod.fst r := by
  unfold getOrNull at h
  cases hg : dget c r with
  | none => rw [hg] at h; simp at h
  | some v => exact dget_eq_some_mem_keys hg

theorem mem_nonNullCols {rows : List RecT} {c : String} :
    c ∈ nonNullCols rows ↔ rows.any (fun r => decide (getOrNull r c ≠ Val.vNull)) = true := by
  unfold nonNullCols
  rw [List.mem_filter]
  constructor
  · exact And.right
  · intro h
    refine ⟨?_, h⟩
    rw [List.any_eq_true] at h
    obtain ⟨r, hr, hne⟩ := h
    exact mem_unionKeys.mpr ⟨r, hr, getOrNull_ne_null_mem (of_decide_eq_true hne)⟩

theorem nodup_nonNullCols (rows : List RecT) : (nonNullCols rows).Nodup :=
  (nodup_dedupFirst [] _).filter _

/-- The shape of every row produced by `optimizeRows`. -/
theorem optimizeRows_eq_map (rows : List RecT) :
    optimizeRows rows =
      rows.map (fun r => (nonNullCols rows).map (fun c => (c, getOrNull r c))) := rfl

theorem getOrNull_optRow (rows : List RecT) (r : RecT) (c : String) :
    getOrNull ((nonNullCols rows).map (fun x => (x, getOrNull r x))) c =
      if c ∈ nonNullCols rows then getOrNull r c else Val.vNull := by
  unfold getOrNull
  rw [dget_map_graph]
  by_cases hc : c ∈ nonNullCols rows <;> simp [hc, getOrNull]

theorem unionKeys_optimizeRows {rows : List RecT} (hne : rows ≠ []) :
    unionKeys (optimizeRows rows) = nonNullCols rows := by
  obtain ⟨r0, rest, rfl⟩ := List.exists_cons_of_ne_nil hne
  unfold unionKeys optimizeRows
  have hkeys : ∀ r : RecT,
      List.map Prod.fst ((nonNullCols (r0 :: rest)).map (fun c => (c, getOrNull r c))) =
        nonNullCols (r0 :: rest) := by
    intro r
    rw [List.map_map]
    rw [show Prod.fst ∘ (fun c => (c, getOrNull r c)) = id from rfl, List.map_id]
  rw [List.flatMap_map]
  have : (fun r : RecT =>
      List.map Prod.fst ((nonNullCols (r0 :: rest)).map (fun c => (c, getOrNull r c)))) =
      fun _ : RecT => nonNullCols (r0 :: rest) := funext hkeys
  rw [show ((r0 :: rest).flatMap fun r =>
      List.map Prod.fst ((nonNullCols (r0 :: rest)).map (fun c => (c, getOrNull r c)))) =
      (r0 :: rest).flatMap (fun _ => nonNullCols (r0 :: rest)) by rw [this]]
  rw [List.flatMap_cons]
  exact dedupFirst_append_left (nodup_nonNullCols _) (by simp)
    (fun x hx => Or.inl (by
      rw [List.mem_flatMap] at hx
      exact hx.choose_spec.2))

theorem nonNullCols_optimizeRows {rows : List RecT} (hne : rows ≠ []) :
    nonNullCols (optimizeRows rows) = nonNullCols rows := by
  unfold nonNullCols
  rw [unionKeys_optimizeRows hne]
  conv_rhs => rw [← List.filter_eq_self.mpr (fun c hc => (List.mem_filter.mp hc).2)]
  · apply List.filter_congr
    intro c hc
    have hcmem : c ∈ nonNullCols rows := by
      unfold nonNullCols; exact hc
    rw [optimizeRows_eq_map, List.any_map]
    apply congrArg
    funext r
    simp only [Function.comp]
    rw [getOrNull_optRow, if_pos hcmem]

theorem optimizeRows_idem {rows : List RecT} (hne : rows ≠ []) :
    optimizeRows (optimizeRows rows) = optimizeRows rows := by
  rw [optimizeRows_eq_map (optimizeRows rows), nonNullCols_optimizeRows hne]
  rw [optimizeRows_eq_map rows, List.map_map]
  apply List.map_congr_left
  intro r _
  simp only [Function.comp]
  apply List.map_congr_left
  intro c hc
  rw [getOrNull_optRow, if_pos hc]

/-- C8: `optimize_tables` is idempotent — re-applying column pruning to
already-pruned tables is a no-op, for every tables mapping. -/
theorem optimizeTables_idempotent (t : TablesT) :
    optimizeTables (optimizeTables t) = optimizeTables t := by
  induction t with
  | nil => rfl
  | cons e rest ih =>
      obtain ⟨name, rows⟩ := e
      by_cases hrows : rows.isEmpty
      · simp only [optimizeTables, if_pos hrows]
        exact ih
      · have hne : rows ≠ [] := fun h => by subst h; exact hrows rfl
        have hne2 : (optimizeRows rows).isEmpty = false := by
          rw [optimizeRows_eq_map]
          cases rows with
          | nil => exact absurd rfl hne
          | cons a l => rfl
        simp only [optimizeTables, if_neg hrows]
        rw [hne2, if_neg (by simp), optimizeRows_idem hne, ih]

theorem dget_optimizeTables {t : TablesT} {name : String} {rows : List RecT}
    (h : dget name t = some rows) (hne : rows ≠ []) :
    dget name (optimizeTables t) = some (optimizeRows rows) := by
  induction t with
  | nil => simp [dget] at h
  | cons e rest ih =>
      obtain ⟨n, rs⟩ := e
      by_cases hn : n = name
      · subst hn
        rw [dget, if_pos rfl] at h
        injection h with h
        subst h
        have hrs : rs.isEmpty = false := by
          cases rs with
          | nil => exact absurd rfl hne
          | cons a l => rfl
        simp only [optimizeTables, hrs, Bool.false_eq_true, if_false, dget, if_pos rfl,
          if_true]
      · rw [dget, if_neg hn] at h
        by_cases hrs : rs.isEmpty
        · simp only [optimizeTables, if_pos hrs]
          exact ih h
        · simp only [optimizeTables, if_neg hrs, dget, if_neg hn]
          exact ih h

/-- C3: for every non-empty table of its input, `optimize_tables` keeps its
row count, drops exactly the columns that are `None` in every row (the
union of columns is taken over all rows, so a column first appearing in a
later row participates), and fills every retained column of every row,
with null where the input row lacks it. -/
theorem optimizeTables_prunes_allNull_columns (t : TablesT) (name : String)
    (rows : List RecT) (h : dget name t = some rows) (hne : rows ≠ []) :
    dget name (optimizeTables t) = some (optimizeRows rows) ∧
    (optimizeRows rows).length = rows.length ∧
    ∀ (i : Nat) (hi : i < (optimizeRows rows).length) (hj : i < rows.length)
      (c : String),
      dget c ((optimizeRows rows).get ⟨i, hi⟩) =
        if rows.any (fun r => decide (getOrNull r c ≠ Val.vNull)) = true then
          some (getOrNull (rows.get ⟨i, hj⟩) c)
        else none := by
  refine ⟨dget_optimizeTables h hne,
    by rw [optimizeRows_eq_map, List.length_map], ?_⟩
  intro i hi hj c
  have hget : (optimizeRows rows).get ⟨i, hi⟩ =
      (nonNullCols rows).map (fun x => (x, getOrNull (rows.get ⟨i, hj⟩) x)) := by
    simp only [optimizeRows_eq_map, List.get_eq_getElem, List.getElem_map]
  rw [hget, dget_map_graph]
  by_cases hc : c ∈ nonNullCols rows
  · rw [if_pos hc, if_pos (mem_nonNullCols.mp hc)]
  · rw [if_neg hc, if_neg (fun hany => hc (mem_nonNullCols.mpr hany))]

/-- The concrete table used to witness the column-pruning theorem: column
`z` is null in every row, column `b` first appears in the second row. -/
def tPruneWitness : TablesT :=
  [("t", [[("a", Val.vInt 1), ("z", Val.vNull)], [("b", Val.vStr "x")]])]

/-- Witness for C3 at a concrete table: the hypotheses are satisfiable and
the pruned table is computed. -/
theorem optimizeTables_prunes_allNull_columns_witness :
    dget "t" (optimizeTables tPruneWitness) =
      some (optimizeRows [[("a", Val.vInt 1), ("z", Val.vNull)],
                          [("b", Val.vStr "x")]]) :=
  (optimizeTables_prunes_allNull_columns tPruneWitness "t"
    [[("a", Val.vInt 1), ("z", Val.vNull)], [("b", Val.vStr "x")]]
    rfl (by decide)).1

/-! ## Association-list lemmas -/

theorem dget_dinsert_self {κ α : Type} [DecidableEq κ] (k : κ) (v : α)
    (l : List (κ × α)) : dget k (dinsert k v l) = some v := by
  induction l with
  | nil => simp [dget, dinsert]
  | cons kv rest ih =>
      by_cases hk : kv.1 = k
      · simp [dinsert, hk, dget]
      · simp [dinsert, hk, dget, ih]

theorem dget_dinsert_ne {κ α : Type} [DecidableEq κ] {k k' : κ} (v : α)
    (l : List (κ × α)) (h : k' ≠ k) : dget k' (dinsert k v l) = dget k' l := by
  induction l with
  | nil => simp [dget, dinsert, Ne.symm h]
  | cons kv rest ih =>
      rw [dinsert]
      by_cases hk : kv.1 = k
      · rw [if_pos hk]
        have hne1 : ¬ kv.1 = k' := fun hh => h (by rw [← hh, hk])
        simp [dget, hne1]
      · rw [if_neg hk]
        by_cases hk' : kv.1 = k'
        · simp [dget, hk']
        · simp [dget, hk', ih]

theorem dget_isSome_iff_mem_keys {κ α : Type} [DecidableEq κ] {k : κ}
    {l : List (κ × α)} : (dget k l).isSome ↔ k ∈ l.map Prod.fst := by
  induction l with
  | nil => simp [dget]
  | cons kv rest ih =>
      by_cases hk : kv.1 = k
      · simp [dget, hk]
      · simp [dget, hk, ih, Ne.symm hk]

theorem map_fst_dinsert_of_mem {κ α : Type} [DecidableEq κ] {k : κ} (v : α)
    {l : List (κ × α)} (h : (dget k l).isSome) :
    (dinsert k v l).map Prod.fst = l.map Prod.fst := by
  induction l with
  | nil => simp [dget] at h
  | cons kv rest ih =>
      by_cases hk : kv.1 = k
      · simp [dinsert, hk]
      · simp only [dget, if_neg hk] at h
        simp [dinsert, hk, ih h]

theorem dget_some_mem {κ α : Type} [DecidableEq κ] {k : κ} {v : α}
    {l : List (κ × α)} (h : dget k l = some v) : (k, v) ∈ l := by
  induction l with
  | nil => simp [dget] at h
  | cons kv rest ih =>
      by_cases hk : kv.1 = k
      · rw [dget, if_pos hk] at h
        injection h with h
        exact List.mem_cons.mpr (Or.inl (by rw [← hk, ← h]))
      · rw [dget, if_neg hk] at h
        exact List.mem_cons_of_mem _ (ih h)

/-! ## popKey lemmas -/

theorem popKey_isSome_iff {κ α : Type} [DecidableEq κ] {k : κ}
    {r : List (κ × α)} : (popKey k r).isSome ↔ (dget k r).isSome := by
  induction r with
  | nil => simp [popKey, dget]
  | cons kv rest ih =>
      by_cases hk : kv.1 = k
      · simp [popKey, dget, hk]
      · simp only [popKey, dget, if_neg hk]
        rw [← ih]
        cases h : popKey k rest with
        | none => simp
        | some p => simp

theorem popKey_dget {κ α : Type} [DecidableEq κ] {k : κ} {r r' : List (κ × α)}
    {v : α} (h : popKey k r = some (v, r')) : dget k r = some v := by
  induction r generalizing r' with
  | nil => simp [popKey] at h
  | cons kv rest ih =>
      by_cases hk : kv.1 = k
      · rw [popKey, if_pos hk] at h
        rw [dget, if_pos hk]
        injection h with h
        injection h with h1 h2
        rw [h1]
      · rw [popKey, if_neg hk, Option.map_eq_some'] at h
        obtain ⟨p, hp, heq⟩ := h
        obtain ⟨p1, p2⟩ := p
        injection heq with h1 h2
        have h1' : p1 = v := h1
        rw [dget, if_neg hk]
        exact ih (h1' ▸ hp)

theorem popKey_stripped {κ α : Type} [DecidableEq κ] {k : κ} {r r' : List (κ × α)}
    {v : α} (hnd : (r.map Prod.fst).Nodup) (h : popKey k r = some (v, r')) :
    dget k r' = none := by
  induction r generalizing r' with
  | nil => simp [popKey] at h
  | cons kv rest ih =>
      by_cases hk : kv.1 = k
      · rw [popKey, if_pos hk] at h
        injection h with h
        injection h with h1 h2
        have hnin : k ∉ List.map Prod.fst rest := by
          rw [← hk]
          exact (List.nodup_cons.mp (by simpa using hnd)).1
        cases hg : dget k r' with
        | none => rfl
        | some w =>
            rw [← h2] at hg
            exact absurd (dget_eq_some_mem_keys hg) hnin
      · rw [popKey, if_neg hk, Option.map_eq_some'] at h
        obtain ⟨p, hp, heq⟩ := h
        obtain ⟨p1, p2⟩ := p
        injection heq with h1 h2
        have h1' : p1 = v := h1
        have h2' : kv :: p2 = r' := h2
        rw [← h2', dget, if_neg hk]
        exact ih (List.nodup_cons.mp (by simpa using hnd)).2 (h1' ▸ hp)

theorem forall₂_mem_left {α β : Type} {R : α → β → Prop} {l1 : List α}
    {l2 : List β} (h : List.Forall₂ R l1 l2) {x : α} (hx : x ∈ l1) :
    ∃ y ∈ l2, R x y := by
  induction h with
  | nil => simp at hx
  | cons hR _ ih =>
      rcases List.mem_cons.mp hx with rfl | hx
      · exact ⟨_, List.mem_cons_self _ _, hR⟩
      · obtain ⟨y, hy, hRy⟩ := ih hx
        exact ⟨y, List.mem_cons_of_mem _ hy, hRy⟩

/-! ## processRecords and processEntity characterization -/

/-- The stripped records returned by `processRecords` are the input records
with their (first) `temp_id` entry popped, pointwise. -/
theorem processRecords_forall₂ {rs : List RecT} {i : Int} {idm0 : List (Val × Int)}
    {tabs stripped : List RecT} {idm : List (Val × Int)}
    (h : processRecords rs i idm0 = some (tabs, stripped, idm)) :
    List.Forall₂ (fun r r' => ∃ v, popKey "temp_id" r = some (v, r')) rs stripped := by
  induction rs generalizing i idm0 tabs stripped idm with
  | nil =>
      simp only [processRecords] at h
      injection h with h
      obtain ⟨h1, h2, h3⟩ : tabs = [] ∧ stripped = [] ∧ idm = idm0 := by
        refine ⟨?_, ?_, ?_⟩ <;> cases h <;> rfl
      subst h2
      exact List.Forall₂.nil
  | cons r rest ih =>
      simp only [processRecords, Option.bind_eq_bind, Option.bind_eq_some] at h
      obtain ⟨p, hp, h⟩ := h
      obtain ⟨q, hq, h⟩ := h
      injection h with h
      obtain ⟨hq1, hq2, hq3⟩ : tabs = _ :: q.1 ∧ stripped = p.2 :: q.2.1 ∧ idm = q.2.2 := by
        refine ⟨?_, ?_, ?_⟩ <;> cases h <;> rfl
      subst hq2
      obtain ⟨pv, pr⟩ := p
      exact List.Forall₂.cons ⟨pv, hp⟩ (ih hq)

/-- `processRecords` succeeds as soon as every record carries a `temp_id`
key. -/
theorem processRecords_isSome {rs : List RecT} {i : Int} {idm0 : List (Val × Int)}
    (h : ∀ r ∈ rs, (dget "temp_id" r).isSome) :
    (processRecords rs i idm0).isSome := by
  induction rs generalizing i idm0 with
  | nil => simp [processRecords]
  | cons r rest ih =>
      have h1 : (popKey "temp_id" r).isSome :=
        popKey_isSome_iff.mpr (h r (List.mem_cons_self _ _))
      obtain ⟨p, hp⟩ := Option.isSome_iff_exists.mp h1
      have h2 := @ih (i + 1) (dinsert p.1 i idm0)
        (fun r hr => h r (List.mem_cons_of_mem _ hr))
      obtain ⟨q, hq⟩ := Option.isSome_iff_exists.mp h2
      simp [processRecords, hp, hq]

/-- Existing keys of the id-map accumulator survive `processRecords`, and
every record's `temp_id` value ends up as a key of the result. -/
theorem processRecords_idm {rs : List RecT} {i : Int} {idm0 : List (Val × Int)}
    {tabs stripped : List RecT} {idm : List (Val × Int)}
    (h : processRecords rs i idm0 = some (tabs, stripped, idm)) :
    (∀ k, (dget k idm0).isSome → (dget k idm).isSome) ∧
    (∀ r ∈ rs, ∀ tv, dget "temp_id" r = some tv → (dget tv idm).isSome) := by
  induction rs generalizing i idm0 tabs stripped idm with
  | nil =>
      simp only [processRecords] at h
      injection h with h
      have h3 : idm = idm0 := by cases h; rfl
      subst h3
      exact ⟨fun k hk => hk, by simp⟩
  | cons r rest ih =>
      simp only [processRecords, Option.bind_eq_bind, Option.bind_eq_some] at h
      obtain ⟨p, hp, h⟩ := h
      obtain ⟨q, hq, h⟩ := h
      injection h with h
      have h3 : idm = q.2.2 := by cases h; rfl
      subst h3
      obtain ⟨ihmono, ihrec⟩ := ih hq
      have hkeep : ∀ k, (dget k (dinsert p.1 i idm0)).isSome → (dget k q.2.2).isSome :=
        ihmono
      refine ⟨?_, ?_⟩
      · intro k hk
        apply hkeep
        by_cases hkp : k = p.1
        · subst hkp
          rw [dget_dinsert_self]
          rfl
        · rw [dget_dinsert_ne _ _ hkp]
          exact hk
      · intro r0 hr0 tv htv
        rcases List.mem_cons.mp hr0 with rfl | hr0
        · have hv : p.1 = tv := by
            have := @popKey_dget String Val _ "temp_id" r0 p.2 p.1
            rw [this (by rw [hp])] at htv
            injection htv
          apply hkeep
          rw [← hv, dget_dinsert_self]
          rfl
        · exact ihrec r0 hr0 tv htv

/-- `processEntity` in components. -/
theorem processEntity_eq {name : String} {st st' : BuilderState}
    (h : processEntity name st = some st') :
    ∃ tabs stripped idm,
      processRecords ((dget name st.entities).getD []) 1 [] =
        some (tabs, stripped, idm) ∧
      st' = { st with
                entities := dinsert name stripped st.entities,
                tables := dinsert name tabs st.tables,
                idMaps := dinsert name idm st.idMaps } := by
  unfold processEntity at h
  simp only [Option.bind_eq_bind, Option.bind_eq_some, Option.pure_def,
    Option.some.injEq] at h
  obtain ⟨q, hq, h2⟩ := h
  exact ⟨q.1, q.2.1, q.2.2, hq, h2.symm⟩

/-! ## The builder invariant, threaded through the phases of build_tables -/

/-- What holds of the builder state after an arbitrary prefix of the
entity-processing work of `build_tables`, relative to the original inputs
`E` (entities) and `R` (relationships): keys are unchanged, relationships
are untouched, unprocessed entities still hold their original records,
processed entities hold their records with `temp_id` popped, and each
processed entity's id map covers all its original temp ids. -/
structure BInv (E R : TablesT) (processed : List String) (st : BuilderState) : Prop where
  keysEq : st.entities.map Prod.fst = E.map Prod.fst
  rels : st.relationships = R
  untouched : ∀ n, n ∉ processed → dget n st.entities = dget n E
  strippedRecs : ∀ n ∈ processed, ∀ recs orig, dget n st.entities = some recs →
    dget n E = some orig →
    List.Forall₂ (fun r r' => ∃ v, popKey "temp_id" r = some (v, r')) orig recs
  idm : ∀ n ∈ processed, ∃ m, dget n st.idMaps = some m ∧
    ∀ orig, dget n E = some orig → ∀ r ∈ orig, ∀ tv, dget "temp_id" r = some tv →
      (dget tv m).isSome
  procSub : ∀ n ∈ processed, n ∈ E.map Prod.fst
  procNodup : processed.Nodup

theorem BInv.init (E R : TablesT) : BInv E R [] ⟨E, R, [], []⟩ where
  keysEq := rfl
  rels := rfl
  untouched := fun _ _ => rfl
  strippedRecs := by simp
  idm := by simp
  procSub := by simp
  procNodup := List.nodup_nil

theorem BInv.step {E R : TablesT} {processed : List String} {st st2 : BuilderState}
    {name : String} (hinv : BInv E R processed st) (hn : name ∈ E.map Prod.fst)
    (hnp : name ∉ processed) (h : processEntity name st = some st2) :
    BInv E R (processed ++ [name]) st2 := by
  obtain ⟨tabs, stripped, idm0, hpr, hst2⟩ := processEntity_eq h
  have hsome : (dget name st.entities).isSome :=
    dget_isSome_iff_mem_keys.mpr (hinv.keysEq ▸ hn)
  obtain ⟨orig, horig⟩ := Option.isSome_iff_exists.mp hsome
  have horigE : dget name E = some orig := hinv.untouched name hnp ▸ horig
  have hgetD : (dget name st.entities).getD [] = orig := by rw [horig]; rfl
  rw [hgetD] at hpr
  subst hst2
  refine ⟨?_, hinv.rels, ?_, ?_, ?_, ?_, ?_⟩
  · simpa [map_fst_dinsert_of_mem stripped hsome] using hinv.keysEq
  · intro n hnmem
    simp only [List.mem_append, List.mem_singleton, not_or] at hnmem
    rw [show dget n (dinsert name stripped st.entities) = dget n st.entities from
      dget_dinsert_ne _ _ hnmem.2]
    exact hinv.untouched n hnmem.1
  · intro n hnmem recs orig' hrecs horig'
    rcases List.mem_append.mp hnmem with hmem | hmem
    · have hne : n ≠ name := fun hh => hnp (hh ▸ hmem)
      rw [dget_dinsert_ne _ _ hne] at hrecs
      exact hinv.strippedRecs n hmem recs orig' hrecs horig'
    · have hne : n = name := List.mem_singleton.mp hmem
      subst hne
      rw [dget_dinsert_self] at hrecs
      injection hrecs with hrecs
      subst hrecs
      rw [horigE] at horig'
      injection horig' with horig'
      subst horig'
      exact processRecords_forall₂ hpr
  · intro n hnmem
    rcases List.mem_append.mp hnmem with hmem | hmem
    · have hne : n ≠ name := fun hh => hnp (hh ▸ hmem)
      obtain ⟨m, hm, hmm⟩ := hinv.idm n hmem
      exact ⟨m, by rw [dget_dinsert_ne _ _ hne]; exact hm, hmm⟩
    · have hne : n = name := List.mem_singleton.mp hmem
      subst hne
      refine ⟨idm0, by rw [dget_dinsert_self], ?_⟩
      intro orig' horig' r hr tv htv
      rw [horigE] at horig'
      injection horig' with horig'
      subst horig'
      exact (processRecords_idm hpr).2 r hr tv htv
  · intro n hnmem
    rcases List.mem_append.mp hnmem with hmem | hmem
    · exact hinv.procSub n hmem
    · exact (List.mem_singleton.mp hmem) ▸ hn
  · rw [List.nodup_append]
    exact ⟨hinv.procNodup, List.nodup_singleton _,
      fun a ha hb => (List.mem_singleton.mp hb ▸ hnp) (List.mem_singleton.mp hb ▸ ha)⟩

/-- `processEntity` succeeds whenever the entity's current records all
carry a `temp_id`. -/
theorem processEntity_isSome {name : String} {st : BuilderState}
    (h : ∀ r ∈ (dget name st.entities).getD [], (dget "temp_id" r).isSome) :
    (processEntity name st).isSome := by
  unfold processEntity
  obtain ⟨q, hq⟩ := Option.isSome_iff_exists.mp
    (@processRecords_isSome _ 1 [] h)
  simp [hq]

theorem mem_insertIfAbsent {n x : String} {l : List String} :
    n ∈ insertIfAbsent x l ↔ n ∈ l ∨ n = x := by
  unfold insertIfAbsent
  by_cases hx : x ∈ l
  · simp only [if_pos hx]
    constructor
    · exact Or.inl
    · rintro (h | rfl)
      · exact h
      · exact hx
  · simp [if_neg hx, List.mem_append]

theorem mem_updateLeafEntities {E' R' : TablesT} {leaves processed : List String}
    {n : String} (h : n ∈ updateLeafEntities E' R' leaves processed) :
    n ∈ leaves ∨ n ∈ E'.map Prod.fst := by
  unfold updateLeafEntities at h
  suffices hgen : ∀ (l : List (String × List RecT)) (acc : List String),
      n ∈ l.foldl (fun acc e =>
        if e.1 ∈ processed then acc
        else if (findChildEntities R' e.1).all (fun c => processed.contains c) then
          insertIfAbsent e.1 acc
        else acc) acc → n ∈ acc ∨ n ∈ l.map Prod.fst by
    exact hgen E' leaves h
  intro l
  induction l with
  | nil => exact fun acc h => Or.inl h
  | cons e rest ih =>
      intro acc h
      simp only [List.foldl_cons] at h
      rcases ih _ h with hacc | hrest
      · by_cases h1 : e.1 ∈ processed
        · rw [if_pos h1] at hacc
          exact Or.inl hacc
        · rw [if_neg h1] at hacc
          by_cases h2 : (findChildEntities R' e.1).all (fun c => processed.contains c)
          · rw [if_pos h2] at hacc
            rcases mem_insertIfAbsent.mp hacc with hacc | rfl
            · exact Or.inl hacc
            · exact Or.inr (by simp)
          · rw [if_neg h2] at hacc
            exact Or.inl hacc
      · exact Or.inr (List.mem_cons_of_mem _ hrest)

theorem runLeafLoop_inv {E R : TablesT} :
    ∀ (fuel : Nat) (leaves processed : List String) (st : BuilderState)
      (out : List String × BuilderState),
      BInv E R processed st → (∀ n ∈ leaves, n ∈ E.map Prod.fst) →
      runLeafLoop fuel leaves processed st = some out →
      BInv E R out.1 out.2 := by
  intro fuel
  induction fuel with
  | zero =>
      intro leaves processed st out hinv _ h
      cases leaves with
      | nil =>
          simp only [runLeafLoop, Option.some.injEq] at h
          rw [← h]
          exact hinv
      | cons a l =>
          simp only [runLeafLoop, Option.some.injEq] at h
          rw [← h]
          exact hinv
  | succ fuel ih =>
      intro leaves processed st out hinv hleaves h
      cases leaves with
      | nil =>
          simp only [runLeafLoop, Option.some.injEq] at h
          rw [← h]
          exact hinv
      | cons name leaves =>
          by_cases hmem : name ∈ processed
          · rw [runLeafLoop, if_pos hmem] at h
            refine ih _ _ _ _ hinv ?_ h
            intro n hn
            rcases mem_updateLeafEntities hn with hn | hn
            · exact hleaves n (List.mem_cons_of_mem _ hn)
            · exact hinv.keysEq ▸ hn
          · rw [runLeafLoop, if_neg hmem] at h
            cases hpe : processEntity name st with
            | none => rw [hpe] at h; exact absurd h (by simp)
            | some st2 =>
                rw [hpe] at h
                have hstep := BInv.step hinv (hleaves name (List.mem_cons_self _ _))
                  hmem hpe
                refine ih _ _ _ _ hstep ?_ h
                intro n hn
                rcases mem_updateLeafEntities hn with hn | hn
                · exact hleaves n (List.mem_cons_of_mem _ hn)
                · exact hstep.keysEq ▸ hn

theorem processRemaining_inv {E R : TablesT} :
    ∀ (names processed : List String) (st st'' : BuilderState),
      BInv E R processed st → names.Nodup →
      (∀ n ∈ names, n ∈ E.map Prod.fst ∧ n ∉ processed) →
      processRemaining names st = some st'' →
      BInv E R (processed ++ names) st'' := by
  intro names
  induction names with
  | nil =>
      intro processed st st'' hinv _ _ h
      simp only [processRemaining, Option.some.injEq] at h
      rw [← h, List.append_nil]
      exact hinv
  | cons n rest ih =>
      intro processed st st'' hinv hnd hcond h
      simp only [processRemaining, Option.bind_eq_bind, Option.bind_eq_some] at h
      obtain ⟨st2, hst2, h⟩ := h
      have hstep := BInv.step hinv (hcond n (List.mem_cons_self _ _)).1
        (hcond n (List.mem_cons_self _ _)).2 hst2
      have hres := ih (processed ++ [n]) st2 st'' hstep (List.nodup_cons.mp hnd).2
        (fun m hm => ⟨(hcond m (List.mem_cons_of_mem _ hm)).1, by
          simp only [List.mem_append, List.mem_singleton, not_or]
          exact ⟨(hcond m (List.mem_cons_of_mem _ hm)).2,
            fun hh => (List.nodup_cons.mp hnd).1 (hh ▸ hm)⟩⟩) h
      rw [List.append_assoc] at hres
      exact hres

theorem processRelationships_preserves {st st' : BuilderState}
    (h : processRelationships st = some st') :
    st'.entities = st.entities ∧ st'.relationships = st.relationships ∧
      st'.idMaps = st.idMaps := by
  unfold processRelationships at h
  simp only [Option.bind_eq_bind, Option.bind_eq_some, Option.pure_def,
    Option.some.injEq] at h
  obtain ⟨t, _, h⟩ := h
  rw [← h]
  exact ⟨rfl, rfl, rfl⟩

/-- A builder invariant is insensitive to the tables field. -/
theorem BInv.transfer {E R : TablesT} {processed : List String}
    {st st' : BuilderState} (hinv : BInv E R processed st)
    (he : st'.entities = st.entities) (hr : st'.relationships = st.relationships)
    (hi : st'.idMaps = st.idMaps) : BInv E R processed st' where
  keysEq := he ▸ hinv.keysEq
  rels := hr ▸ hinv.rels
  untouched := fun n hn => he ▸ hinv.untouched n hn
  strippedRecs := fun n hn recs orig hrecs horig =>
    hinv.strippedRecs n hn recs orig (he ▸ hrecs) horig
  idm := fun n hn => hi ▸ hinv.idm n hn
  procSub := hinv.procSub
  procNodup := hinv.procNodup

/-- After a successful `build_tables` run there is a processed set that
satisfies the builder invariant and covers every entity name. -/
theorem buildTables_inv {E R : TablesT} {st' : BuilderState}
    (hkeys : (E.map Prod.fst).Nodup) (h : buildTables E R = some st') :
    ∃ processed, BInv E R processed st' ∧ ∀ n ∈ E.map Prod.fst, n ∈ processed := by
  unfold buildTables at h
  simp only [Option.bind_eq_bind, Option.bind_eq_some] at h
  obtain ⟨q, hq, h⟩ := h
  obtain ⟨st1, hrem, hrel⟩ := h
  have hinv0 : BInv E R [] ⟨E, R, [], []⟩ := BInv.init E R
  have hleaves : ∀ n ∈ findLeafEntities E R, n ∈ E.map Prod.fst := by
    intro n hn
    exact (List.mem_filter.mp hn).1
  have hinvq := runLeafLoop_inv _ _ _ _ _ hinv0 hleaves hq
  have hnames : ∀ n, n ∈ (q.2.entities.map Prod.fst).filter
      (fun n => !(q.1.contains n)) → n ∈ E.map Prod.fst ∧ n ∉ q.1 := by
    intro n hn
    obtain ⟨h1, h2⟩ := List.mem_filter.mp hn
    refine ⟨hinvq.keysEq ▸ h1, ?_⟩
    intro hmem
    have hcon : q.1.contains n = true := List.elem_iff.mpr hmem
    rw [hcon] at h2
    simp at h2
  have hnd : ((q.2.entities.map Prod.fst).filter (fun n => !(q.1.contains n))).Nodup :=
    List.Nodup.filter _ (hinvq.keysEq ▸ hkeys)
  have hinv1 := processRemaining_inv _ _ _ _ hinvq hnd hnames hrem
  obtain ⟨he, hr, hi⟩ := processRelationships_preserves hrel
  refine ⟨_, BInv.transfer hinv1 he hr hi, ?_⟩
  intro n hn
  rw [List.mem_append]
  by_cases hq1 : n ∈ q.1
  · exact Or.inl hq1
  · refine Or.inr (List.mem_filter.mpr ⟨hinvq.keysEq ▸ hn, ?_⟩)
    cases hcon : q.1.contains n with
    | false => simp [hcon]
    | true => exact absurd (List.elem_iff.mp hcon) hq1

theorem forall₂_mem_right {α β : Type} {R : α → β → Prop} {l1 : List α}
    {l2 : List β} (h : List.Forall₂ R l1 l2) {y : β} (hy : y ∈ l2) :
    ∃ x ∈ l1, R x y := by
  induction h with
  | nil => simp at hy
  | cons hR _ ih =>
      rcases List.mem_cons.mp hy with rfl | hy
      · exact ⟨_, List.mem_cons_self _ _, hR⟩
      · obtain ⟨x, hx, hRx⟩ := ih hy
        exact ⟨x, List.mem_cons_of_mem _ hx, hRx⟩

/-- C10: `build_tables` destructively consumes its input —
`_process_entity` pops `temp_id` from every record of the entities mapping
in place, so after a successful run no record of the (mutated) entities
mapping still has a `temp_id` key, and a second `build_tables` over the
same mutated mapping fails with a missing-key error on `temp_id` as soon as
any entity still has records.  (Records of a Python dict have distinct
keys, whence the `Nodup` hypotheses.) -/
theorem buildTables_strips_temp_id (entities relationships : TablesT)
    (st' : BuilderState) (hkeys : (entities.map Prod.fst).Nodup)
    (hnodup : ∀ p ∈ entities, ∀ r ∈ p.2, (List.map Prod.fst r).Nodup)
    (h : buildTables entities relationships = some st') :
    (∀ name recs, dget name st'.entities = some recs →
       ∀ r ∈ recs, dget "temp_id" r = none) ∧
    ((∃ name recs, dget name st'.entities = some recs ∧ recs ≠ []) →
       buildTables st'.entities relationships = none) := by
  obtain ⟨processed, hinv, hcover⟩ := buildTables_inv hkeys h
  have partA : ∀ name recs, dget name st'.entities = some recs →
      ∀ r ∈ recs, dget "temp_id" r = none := by
    intro name recs hrecs r hr
    have hmemk : name ∈ entities.map Prod.fst :=
      hinv.keysEq ▸ dget_isSome_iff_mem_keys.mp (by rw [hrecs]; rfl)
    obtain ⟨orig, horig⟩ := Option.isSome_iff_exists.mp
      (dget_isSome_iff_mem_keys.mpr hmemk)
    have hf2 := hinv.strippedRecs name (hcover name hmemk) recs orig hrecs horig
    obtain ⟨ro, hro, v, hpop⟩ := forall₂_mem_right hf2 hr
    exact popKey_stripped (hnodup _ (dget_some_mem horig) ro hro) hpop
  refine ⟨partA, ?_⟩
  rintro ⟨name, recs, hrecs, hne⟩
  cases h2 : buildTables st'.entities relationships with
  | none => rfl
  | some st2 =>
      exfalso
      have hkeys' : (st'.entities.map Prod.fst).Nodup := by
        rw [hinv.keysEq]; exact hkeys
      obtain ⟨processed2, hinv2, hcover2⟩ := buildTables_inv hkeys' h2
      have hmemk : name ∈ st'.entities.map Prod.fst :=
        dget_isSome_iff_mem_keys.mp (by rw [hrecs]; rfl)
      obtain ⟨recs2, hrecs2⟩ := Option.isSome_iff_exists.mp
        (dget_isSome_iff_mem_keys.mpr (hinv2.keysEq ▸ hmemk :
          name ∈ st2.entities.map Prod.fst))
      have hf2 := hinv2.strippedRecs name (hcover2 name hmemk) recs2 recs hrecs2 hrecs
      obtain ⟨r2, hr2, v, hpop⟩ := forall₂_mem_left hf2 (List.head_mem hne)
      have hnone := partA name recs hrecs _ (List.head_mem hne)
      have hsome : (dget "temp_id" (recs.head hne)).isSome :=
        popKey_isSome_iff.mp (by rw [hpop]; rfl)
      rw [hnone] at hsome
      exact absurd hsome (by simp)

/-- Witness for C10: on the entity mapping `{e: [{temp_id: 1}]}` the first
`build_tables` run succeeds and strips `temp_id`; the second run over the
mutated mapping fails. -/
theorem buildTables_strips_temp_id_witness :
    buildTables [("e", [([] : RecT)])] [] = none :=
  (buildTables_strips_temp_id [("e", [[("temp_id", Val.vInt 1)]])] []
      ⟨[("e", [[]])], [], [("e", [[("id", Val.vInt 1)]])],
        [("e", [(Val.vInt 1, 1)])]⟩
      (by decide) (by decide) rfl).2
    ⟨"e", [[]], rfl, by decide⟩

/-! ## The hierarchy/observation invariant (claim C6) -/

/-- The hierarchy always equals, childwise, the parent of the last
novelty-flagged observation in the ghost log. -/
def HInv (st : AnalyzerState) : Prop :=
  ∀ c, dget c st.entityHierarchy = lastNewObservedParent st.obsLog c

theorem lastNewObservedParent_append_one (log : List Obs) (o : Obs) (c : String) :
    lastNewObservedParent (log ++ [o]) c =
      if decide (o.child = c) && o.isNew then some o.parent
      else lastNewObservedParent log c := by
  unfold lastNewObservedParent
  rw [List.filter_append]
  by_cases hkeep : (decide (o.child = c) && o.isNew) = true
  · rw [if_pos hkeep]
    have : List.filter (fun o => decide (o.child = c) && o.isNew) [o] = [o] := by
      simp [List.filter, hkeep]
    rw [this, List.getLast?_concat]
    rfl
  · rw [if_neg hkeep]
    have : List.filter (fun o => decide (o.child = c) && o.isNew) [o] = [] := by
      simp only [List.filter]
      rw [show (decide (o.child = c) && o.isNew) = false from by
        cases hc : (decide (o.child = c) && o.isNew)
        · rfl
        · exact absurd hc hkeep]
    rw [this, List.append_nil]

theorem HInv.initEntity {st : AnalyzerState} (h : HInv st) (n : String) :
    HInv (initEntity n st) := by
  unfold JsonToSql.initEntity
  split
  · exact h
  · exact h

theorem HInv.getNextTempId {st : AnalyzerState} (h : HInv st) (n : String) :
    HInv (getNextTempId n st).2 := h

theorem HInv.appendRecord {st : AnalyzerState} (h : HInv st) (n : String) (r : RecT) :
    HInv (appendRecord n r st) := h

theorem HInv.appendRelRecord {st : AnalyzerState} (h : HInv st) (n : String) (r : RecT) :
    HInv (appendRelRecord n r st) := h

theorem initRelationship_eq_pos (rn p c0 : String) (st : AnalyzerState)
    (hfresh : (dget rn st.relationships).isNone = true) :
    initRelationship rn p c0 st =
      { st with
          obsLog := st.obsLog ++ [⟨p, c0, true⟩],
          relationships := dinsert rn [] st.relationships,
          entityHierarchy := dinsert c0 p st.entityHierarchy } := by
  simp only [initRelationship, hfresh, if_true]

theorem initRelationship_eq_neg (rn p c0 : String) (st : AnalyzerState)
    (hfresh : (dget rn st.relationships).isNone = false) :
    initRelationship rn p c0 st =
      { st with obsLog := st.obsLog ++ [⟨p, c0, false⟩] } := by
  simp only [initRelationship, hfresh, Bool.false_eq_true, if_false]

theorem HInv.initRelationship {st : AnalyzerState} (h : HInv st)
    (rn p c0 : String) : HInv (initRelationship rn p c0 st) := by
  intro c
  cases hfresh : (dget rn st.relationships).isNone with
  | true =>
      rw [initRelationship_eq_pos rn p c0 st hfresh]
      simp only
      rw [lastNewObservedParent_append_one]
      by_cases hc : c0 = c
      · subst hc
        rw [dget_dinsert_self]
        simp
      · rw [dget_dinsert_ne _ _ (fun hh => hc hh.symm)]
        have hcond : (decide ((⟨p, c0, true⟩ : Obs).child = c) &&
            (⟨p, c0, true⟩ : Obs).isNew) = false := by simp [hc]
        rw [hcond, if_neg (by simp)]
        exact h c
  | false =>
      rw [initRelationship_eq_neg rn p c0 st hfresh]
      simp only
      rw [lastNewObservedParent_append_one]
      have hcond : (decide ((⟨p, c0, false⟩ : Obs).child = c) &&
          (⟨p, c0, false⟩ : Obs).isNew) = false := by simp
      rw [hcond, if_neg (by simp)]
      exact h c

mutual

theorem processField_hinv (key : String) (value : Json) (pe : String) (pt : Int)
    (st : AnalyzerState) (h : HInv st) : HInv (processField key value pe pt st) := by
  cases value with
  | obj fields =>
      exact HInv.appendRelRecord
        (HInv.appendRecord
          (processObjFields_hinv fields _ _ _ _
            (HInv.getNextTempId
              (HInv.initRelationship (HInv.initEntity h _) _ _ _) _)) _ _) _ _
  | arr items =>
      exact processArrayItems_hinv items _ _ _ _ _
        (HInv.initRelationship (HInv.initEntity h _) _ _ _)
  | scalar v => exact h

theorem processObjFields_hinv (fields : List (String × Json)) (en : String)
    (tid : Int) (st : AnalyzerState) (record : RecT) (h : HInv st) :
    HInv (processObjFields fields en tid st record).1 := by
  cases fields with
  | nil => exact h
  | cons f rest =>
      obtain ⟨k, v⟩ := f
      exact processObjFields_hinv rest _ _ _ _ (processField_hinv k v _ _ _ h)

theorem processArrayItems_hinv (items : List Json) (en pe : String) (pt : Int)
    (rn : String) (st : AnalyzerState) (h : HInv st) :
    HInv (processArrayItems items en pe pt rn st) := by
  cases items with
  | nil => exact h
  | cons item rest =>
      cases item with
      | obj fields =>
          exact processArrayItems_hinv rest _ _ _ _ _
            (HInv.appendRelRecord
              (HInv.appendRecord
                (processObjFields_hinv fields _ _ _ _ (HInv.getNextTempId h _)) _ _) _ _)
      | scalar sv =>
          exact processArrayItems_hinv rest _ _ _ _ _
            (HInv.appendRelRecord
              (HInv.appendRecord (HInv.getNextTempId h _) _ _) _ _)
      | arr xs => exact processArrayItems_hinv rest _ _ _ _ _ h

end

theorem analyzeListItems_hinv (items : List Json) (rootName : String)
    (st : AnalyzerState) (h : HInv st) : HInv (analyzeListItems items rootName st) := by
  induction items generalizing st with
  | nil => exact h
  | cons item rest ih =>
      cases item with
      | obj fields =>
          exact ih _
            (HInv.appendRecord
              (processObjFields_hinv fields _ _ _ _ (HInv.getNextTempId h _)) _ _)
      | scalar sv =>
          exact ih _ (HInv.appendRecord (HInv.getNextTempId h _) _ _)
      | arr xs => exact ih _ h

theorem hinv_empty : HInv emptyAnalyzerState := fun _ => rfl

/-- C6 (amended): for every input JSON value, the hierarchy maps a child
entity name to the parent of the last observation that introduced a NEW
relationship name (first observation of that parent/child pair); later
observations of an already-known pair do not overwrite, so the parent of
the last observation as such need not be stored (see the counterexample). -/
theorem hierarchy_eq_last_new_observation (rootName : String) (json : Json)
    (c : String) :
    dget c (analyze rootName json).entityHierarchy =
      lastNewObservedParent (analyze rootName json).obsLog c := by
  cases json with
  | obj fields =>
      exact (HInv.appendRecord
        (processObjFields_hinv fields _ _ _ _
          (HInv.getNextTempId (HInv.initEntity hinv_empty _) _)) _ _) c
  | arr items =>
      exact (analyzeListItems_hinv items _ _ (HInv.initEntity hinv_empty _)) c
  | scalar v => exact hinv_empty c

/-! ## The width-escalation ladder on a single string column (claim C5) -/

/-- `n` fits into a column of the given width (`none` = unbounded). -/
def fitsWidth (n : Int) : Option Nat → Prop
  | none => True
  | some k => n ≤ (k : Int)

/-- Every rung chosen by the ladder fits the value that triggered it. -/
theorem escalateWidth_fits (n : Int) : fitsWidth n (escalateWidth n) := by
  unfold escalateWidth
  by_cases h1 : n < 255
  · rw [if_pos h1]; show n ≤ ((255 : Nat) : Int); omega
  · rw [if_neg h1]
    by_cases h2 : n < 500
    · rw [if_pos h2]; show n ≤ ((500 : Nat) : Int); omega
    · rw [if_neg h2]
      by_cases h3 : n < 1000
      · rw [if_pos h3]; show n ≤ ((1000 : Nat) : Int); omega
      · rw [if_neg h3]
        by_cases h4 : n < 2000
        · rw [if_pos h4]; show n ≤ ((2000 : Nat) : Int); omega
        · rw [if_neg h4]; trivial

theorem violatingCols_single_over {name lit : String} {w : Nat}
    (hq : isQuotedLit lit = true) (hover : (w : Int) < litLen lit) :
    violatingCols [name] [lit] [(name, some w)] = [name] := by
  simp [violatingCols, dget, hq, hover]

theorem violatingCols_single_fits {name lit : String} {wopt : Option Nat}
    (hfit : fitsWidth (litLen lit) wopt) :
    violatingCols [name] [lit] [(name, wopt)] = [] := by
  cases wopt with
  | none => simp [violatingCols, dget]
  | some k =>
      have hnot : ¬ (litLen lit > (k : Int)) := not_lt.mpr hfit
      simp [violatingCols, dget, hnot]

theorem longestUnresized_single {name lit : String} (hq : isQuotedLit lit = true)
    (hpos : 0 < litLen lit) :
    longestUnresized [name] [lit] [] = (litLen lit, some name) := by
  simp [longestUnresized, hq, hpos]

/-- C5 (amended): when the row's only string column holds a quoted literal
longer than the column's current width, the truncation handler widens THAT
column to the next rung of the ladder 255→500→1000→2000→MAX — which always
fits the value — and the row succeeds after exactly one width-escalation
retry (two insert attempts, one ALTER).  In general the handler picks the
column with the longest not-yet-resized quoted literal, which need not be
the offending one (see the counterexample). -/
theorem widthEscalation_single_column (name lit : String) (w : Nat)
    (hq : isQuotedLit lit = true) (hover : (w : Int) < litLen lit) :
    insertRowLoop (widthDriver [name] [lit]) [name] [lit] 10 [(name, some w)] initTrace =
      InsertOutcome.success [(name, escalateWidth (litLen lit))]
        { attemptCount := 1, resizedColumns := [name], insertCalls := 2,
          alterLog := [(name, escalateWidth (litLen lit))], addLog := [] } ∧
    fitsWidth (litLen lit) (escalateWidth (litLen lit)) := by
  have hpos : 0 < litLen lit := lt_of_le_of_lt (Int.ofNat_nonneg w) hover
  have hexec1 : (widthDriver [name] [lit]).execInsert [(name, some w)] =
      (ExecResp.dataTrunc, [(name, some w)]) := by
    simp [widthDriver, List.find?, dget, violatingCols_single_over hq hover]
  have hexec2 : (widthDriver [name] [lit]).execInsert
      [(name, escalateWidth (litLen lit))] =
      (ExecResp.ok, [(name, escalateWidth (litLen lit))]) := by
    simp [widthDriver, List.find?, dget,
      violatingCols_single_fits (escalateWidth_fits (litLen lit))]
  refine ⟨?_, escalateWidth_fits (litLen lit)⟩
  have step1 : insertRowLoop (widthDriver [name] [lit]) [name] [lit] (9 + 1)
      [(name, some w)] initTrace =
      insertRowLoop (widthDriver [name] [lit]) [name] [lit] 9
        [(name, escalateWidth (litLen lit))]
        { attemptCount := 0, resizedColumns := [name], insertCalls := 1,
          alterLog := [(name, escalateWidth (litLen lit))], addLog := [] } := by
    rw [insertRowLoop, if_neg (by decide)]
    simp only [initTrace, hexec1, longestUnresized_single hq hpos]
    rw [show (widthDriver [name] [lit]).alterColWidth [(name, some w)] name
        (escalateWidth (litLen lit)) = [(name, escalateWidth (litLen lit))] from by
      simp [widthDriver, dinsert]]
    rfl
  have step2 : insertRowLoop (widthDriver [name] [lit]) [name] [lit] 9
      [(name, escalateWidth (litLen lit))]
      { attemptCount := 0, resizedColumns := [name], insertCalls := 1,
        alterLog := [(name, escalateWidth (litLen lit))], addLog := [] } =
      InsertOutcome.success [(name, escalateWidth (litLen lit))]
        { attemptCount := 1, resizedColumns := [name], insertCalls := 2,
          alterLog := [(name, escalateWidth (litLen lit))], addLog := [] } := by
    rw [show (9 : Nat) = 8 + 1 from rfl, insertRowLoop,
      if_neg (show ¬ ((0 : Int) ≥ maxAttempts) from by decide)]
    simp only [hexec2]
    rfl
  rw [show (10 : Nat) = 9 + 1 from rfl]
  exact step1.trans step2

set_option maxRecDepth 40000 in
/-- Witness for C5 (amended) at a concrete 300-character literal in a
255-wide column: one escalation to width 500, then success. -/
theorem widthEscalation_single_column_witness :
    insertRowLoop (widthDriver ["A"] [litB]) ["A"] [litB] 10 [("A", some 255)]
        initTrace =
      InsertOutcome.success [("A", escalateWidth (litLen litB))]
        { attemptCount := 1, resizedColumns := ["A"], insertCalls := 2,
          alterLog := [("A", escalateWidth (litLen litB))], addLog := [] } ∧
    fitsWidth (litLen litB) (escalateWidth (litLen litB)) :=
  widthEscalation_single_column "A" litB 255 (by decide) (by decide)

/-! ## Reference safety of the analyzer/builder pipeline (claim C9) -/

/-- The (entity, temp id) pairs recorded in the entities mapping: one per
record carrying a `temp_id` key. -/
def recordedPairs (ents : TablesT) : List (String × Val) :=
  ents.flatMap (fun e =>
    e.2.filterMap (fun r => (dget "temp_id" r).map (fun v => (e.1, v))))

/-- The (entity, temp id) pairs a single relationship record references. -/
def relRecordPairs (r : RecT) : List (String × Val) :=
  r.filterMap (fun kv =>
    if isTempIdKey kv.1 then some (stripTempIdKey kv.1, kv.2) else none)

/-- All (entity, temp id) pairs referenced by the relationships mapping. -/
def referencedPairs (rels : TablesT) : List (String × Val) :=
  rels.flatMap (fun e => e.2.flatMap relRecordPairs)

/-- The reference invariant of the analyzer: every referenced pair is
either recorded (with its entity present in the entities mapping) or still
pending — promised by an enclosing call that will append the parent record
later. -/
def InvRefs (st : AnalyzerState) (P : List (String × Val)) : Prop :=
  ∀ p ∈ referencedPairs st.relationships,
    (p ∈ recordedPairs st.entities ∧ p.1 ∈ st.entities.map Prod.fst) ∨ p ∈ P

/-- Entities only grow: recorded pairs and entity names are preserved. -/
def entExt (st st' : AnalyzerState) : Prop :=
  (∀ p, p ∈ recordedPairs st.entities → p ∈ recordedPairs st'.entities) ∧
  (∀ n, n ∈ st.entities.map Prod.fst → n ∈ st'.entities.map Prod.fst)

theorem entExt_rfl {st : AnalyzerState} : entExt st st := ⟨fun _ h => h, fun _ h => h⟩

theorem entExt_trans {s1 s2 s3 : AnalyzerState} (h1 : entExt s1 s2)
    (h2 : entExt s2 s3) : entExt s1 s3 :=
  ⟨fun p hp => h2.1 p (h1.1 p hp), fun n hn => h2.2 n (h1.2 n hn)⟩

theorem dinsert_absent {κ α : Type} [DecidableEq κ] {k : κ} (v : α)
    {l : List (κ × α)} (h : dget k l = none) : dinsert k v l = l ++ [(k, v)] := by
  induction l with
  | nil => rfl
  | cons kv rest ih =>
      rw [dget] at h
      by_cases hk : kv.1 = k
      · rw [if_pos hk] at h
        exact absurd h (by simp)
      · rw [if_neg hk] at h
        rw [dinsert, if_neg hk, ih h]
        rfl

theorem dget_isSome_dinsert {κ α : Type} [DecidableEq κ] {k k' : κ} (v : α)
    {l : List (κ × α)} (h : (dget k l).isSome) :
    (dget k (dinsert k' v l)).isSome := by
  by_cases hk : k = k'
  · subst hk
    rw [dget_dinsert_self]
    rfl
  · rw [dget_dinsert_ne _ _ hk]
    exact h

theorem map_fst_dmodify {κ α : Type} [DecidableEq κ] (k : κ) (f : α → α)
    (l : List (κ × α)) : (dmodify k f l).map Prod.fst = l.map Prod.fst := by
  induction l with
  | nil => rfl
  | cons kv rest ih =>
      rw [dmodify]
      by_cases hk : kv.1 = k
      · rw [if_pos hk]
        rfl
      · rw [if_neg hk]
        simp [ih]

theorem mem_dmodify {κ α : Type} [DecidableEq κ] {k : κ} {f : α → α}
    {l : List (κ × α)} {e : κ × α} (h : e ∈ dmodify k f l) :
    e ∈ l ∨ ∃ v, (k, v) ∈ l ∧ e = (k, f v) := by
  induction l with
  | nil => simp [dmodify] at h
  | cons kv rest ih =>
      rw [dmodify] at h
      by_cases hk : kv.1 = k
      · rw [if_pos hk] at h
        rcases List.mem_cons.mp h with rfl | h
        · refine Or.inr ⟨kv.2, ?_, by rw [hk]⟩
          rw [show (k, kv.2) = kv from by rw [← hk]]
          exact List.mem_cons_self _ _
        · exact Or.inl (List.mem_cons_of_mem _ h)
      · rw [if_neg hk] at h
        rcases List.mem_cons.mp h with rfl | h
        · exact Or.inl (List.mem_cons_self _ _)
        · rcases ih h with h | ⟨v, hv, he⟩
          · exact Or.inl (List.mem_cons_of_mem _ h)
          · exact Or.inr ⟨v, List.mem_cons_of_mem _ hv, he⟩

theorem dmodify_first {κ α : Type} [DecidableEq κ] {k : κ} {f : α → α}
    {l : List (κ × α)} {v : α} (h : dget k l = some v) :
    (k, f v) ∈ dmodify k f l := by
  induction l with
  | nil => simp [dget] at h
  | cons kv rest ih =>
      rw [dget] at h
      rw [dmodify]
      by_cases hk : kv.1 = k
      · rw [if_pos hk] at h
        injection h with h
        rw [if_pos hk]
        exact List.mem_cons.mpr (Or.inl (by rw [← hk, ← h]))
      · rw [if_neg hk] at h
        rw [if_neg hk]
        exact List.mem_cons_of_mem _ (ih h)

theorem isTempIdKey_append (x : String) : isTempIdKey (x ++ "_temp_id") = true := by
  unfold isTempIdKey
  rw [List.isSuffixOf_iff_suffix]
  rw [show (x ++ "_temp_id").data = x.data ++ "_temp_id".data from String.data_append x _]
  exact List.suffix_append x.data tempIdSuffix

theorem stripTempIdKey_append (x : String) : stripTempIdKey (x ++ "_temp_id") = x := by
  unfold stripTempIdKey
  rw [show (x ++ "_temp_id").data = x.data ++ "_temp_id".data from String.data_append x _]
  rw [List.length_append]
  rw [show x.data.length + "_temp_id".data.length - 8 = x.data.length from by
    simp [tempIdSuffix]]
  rw [List.take_left]

theorem mkRelRecord_pairs {pe en : String} {pt tid : Int} {q : String × Val}
    (h : q ∈ relRecordPairs (mkRelRecord pe pt en tid)) :
    q = (pe, Val.vInt pt) ∨ q = (en, Val.vInt tid) := by
  unfold mkRelRecord at h
  by_cases hpe : pe ++ "_temp_id" = en ++ "_temp_id"
  · have hpeen : pe = en := by
      have := congrArg (fun s : String => stripTempIdKey s) hpe
      simpa [stripTempIdKey_append] using this
    rw [show dinsert (en ++ "_temp_id") (Val.vInt tid)
        (dinsert (pe ++ "_temp_id") (Val.vInt pt) []) =
        [(pe ++ "_temp_id", Val.vInt tid)] from by
      simp [dinsert, hpe.symm]] at h
    simp only [relRecordPairs, List.filterMap, isTempIdKey_append, if_pos] at h
    have h' : q = (stripTempIdKey (pe ++ "_temp_id"), Val.vInt tid) := by
      simpa using h
    exact Or.inr (by rw [h', stripTempIdKey_append, hpeen])
  · rw [show dinsert (en ++ "_temp_id") (Val.vInt tid)
        (dinsert (pe ++ "_temp_id") (Val.vInt pt) []) =
        [(pe ++ "_temp_id", Val.vInt pt), (en ++ "_temp_id", Val.vInt tid)] from by
      simp [dinsert, hpe]] at h
    simp only [relRecordPairs, List.filterMap, isTempIdKey_append, if_pos] at h
    have h' : q = (stripTempIdKey (pe ++ "_temp_id"), Val.vInt pt) ∨
        q = (stripTempIdKey (en ++ "_temp_id"), Val.vInt tid) := by
      simpa using h
    rcases h' with h' | h'
    · exact Or.inl (by rw [h', stripTempIdKey_append])
    · exact Or.inr (by rw [h', stripTempIdKey_append])

theorem mem_referencedPairs_intro {rels : TablesT} {entry : String × List RecT}
    {r : RecT} {q : String × Val} (he : entry ∈ rels) (hr : r ∈ entry.2)
    (hq : q ∈ relRecordPairs r) : q ∈ referencedPairs rels := by
  unfold referencedPairs
  rw [List.mem_flatMap]
  exact ⟨entry, he, by rw [List.mem_flatMap]; exact ⟨r, hr, hq⟩⟩

theorem mem_recordedPairs_elim {ents : TablesT} {q : String × Val}
    (h : q ∈ recordedPairs ents) :
    ∃ entry ∈ ents, entry.1 = q.1 ∧ ∃ r ∈ entry.2, dget "temp_id" r = some q.2 := by
  unfold recordedPairs at h
  rw [List.mem_flatMap] at h
  obtain ⟨entry, he, hq⟩ := h
  rw [List.mem_filterMap] at hq
  obtain ⟨r, hr, hmap⟩ := hq
  rw [Option.map_eq_some'] at hmap
  obtain ⟨v, hv, heq⟩ := hmap
  exact ⟨entry, he, by rw [← heq], r, hr, by rw [hv, show v = q.2 from by
    rw [← heq]]⟩

theorem mem_recordedPairs_intro {ents : TablesT} {entry : String × List RecT}
    {r : RecT} {v : Val} (he : entry ∈ ents) (hr : r ∈ entry.2)
    (hv : dget "temp_id" r = some v) : (entry.1, v) ∈ recordedPairs ents := by
  unfold recordedPairs
  rw [List.mem_flatMap]
  refine ⟨entry, he, ?_⟩
  rw [List.mem_filterMap]
  exact ⟨r, hr, by rw [hv]; rfl⟩

/-- `referencedPairs` is unchanged when an empty relationship list is added
for a new name. -/
theorem referencedPairs_dinsert_empty {rels : TablesT} {rn : String}
    (h : dget rn rels = none) :
    referencedPairs (dinsert rn [] rels) = referencedPairs rels := by
  rw [dinsert_absent [] h]
  unfold referencedPairs
  rw [List.flatMap_append]
  simp

/-- New referenced pairs after appending one relationship record come from
that record. -/
theorem referencedPairs_dmodify_append {rels : TablesT} {rn : String} {r : RecT}
    {q : String × Val}
    (h : q ∈ referencedPairs (dmodify rn (fun recs => recs ++ [r]) rels)) :
    q ∈ referencedPairs rels ∨ q ∈ relRecordPairs r := by
  unfold referencedPairs at h
  rw [List.mem_flatMap] at h
  obtain ⟨entry, he, hq⟩ := h
  rcases mem_dmodify he with he | ⟨recs, hrecs, heq⟩
  · exact Or.inl (by unfold referencedPairs; rw [List.mem_flatMap]; exact ⟨entry, he, hq⟩)
  · subst heq
    simp only [List.flatMap_append] at hq
    rcases List.mem_append.mp hq with hq | hq
    · exact Or.inl (by
        unfold referencedPairs
        rw [List.mem_flatMap]
        exact ⟨(rn, recs), hrecs, hq⟩)
    · simp only [List.flatMap_cons, List.flatMap_nil, List.append_nil] at hq
      exact Or.inr hq

/-- Recorded pairs survive adding a fresh empty entity. -/
theorem recordedPairs_dinsert_empty {ents : TablesT} {n : String} {q : String × Val}
    (habs : dget n ents = none) (h : q ∈ recordedPairs ents) :
    q ∈ recordedPairs (dinsert n [] ents) := by
  rw [dinsert_absent [] habs]
  unfold recordedPairs at h ⊢
  rw [List.flatMap_append]
  exact List.mem_append_left _ h

/-- Every entry survives an append-modification: some entry with the same
name and a superset of records is present afterwards. -/
theorem exists_superentry_dmodify_append {ents : TablesT} {n : String} {r : RecT}
    {entry : String × List RecT} (he : entry ∈ ents) :
    ∃ entry' ∈ dmodify n (fun recs => recs ++ [r]) ents,
      entry'.1 = entry.1 ∧ ∀ x ∈ entry.2, x ∈ entry'.2 := by
  induction ents with
  | nil => exact absurd he (List.not_mem_nil entry)
  | cons e rest ih =>
      rw [dmodify]
      by_cases hk : e.1 = n
      · rw [if_pos hk]
        rcases List.mem_cons.mp he with rfl | he
        · exact ⟨(entry.1, entry.2 ++ [r]), List.mem_cons_self _ _, rfl,
            fun x hx => List.mem_append_left _ hx⟩
        · exact ⟨entry, List.mem_cons_of_mem _ he, rfl, fun x hx => hx⟩
      · rw [if_neg hk]
        rcases List.mem_cons.mp he with rfl | he
        · exact ⟨entry, List.mem_cons_self _ _, rfl, fun x hx => hx⟩
        · obtain ⟨entry', h1, h2, h3⟩ := ih he
          exact ⟨entry', List.mem_cons_of_mem _ h1, h2, h3⟩

/-- Recorded pairs survive appending a record to any entity. -/
theorem recordedPairs_dmodify_append {ents : TablesT} {n : String} {r : RecT}
    {q : String × Val} (h : q ∈ recordedPairs ents) :
    q ∈ recordedPairs (dmodify n (fun recs => recs ++ [r]) ents) := by
  obtain ⟨entry, he, h1, r0, hr0, hv⟩ := mem_recordedPairs_elim h
  obtain ⟨entry', he', h2, h3⟩ := @exists_superentry_dmodify_append _ n r _ he
  have : (entry'.1, q.2) ∈ recordedPairs (dmodify n (fun recs => recs ++ [r]) ents) :=
    mem_recordedPairs_intro he' (h3 r0 hr0) hv
  rw [h2, h1] at this
  exact this

/-- Every record of every entity carries a `temp_id` key. -/
def RecTemp (st : AnalyzerState) : Prop :=
  ∀ entry ∈ st.entities, ∀ r ∈ entry.2, (dget "temp_id" r).isSome

/-- Entity names are pairwise distinct (a Python dict). -/
def NodupKeys (st : AnalyzerState) : Prop := (st.entities.map Prod.fst).Nodup

theorem InvRefs.mono {st st' : AnalyzerState} {P : List (String × Val)}
    (h : InvRefs st P) (he : entExt st st')
    (hr : ∀ q, q ∈ referencedPairs st'.relationships →
      q ∈ referencedPairs st.relationships) : InvRefs st' P := by
  intro p hp
  rcases h p (hr p hp) with ⟨h1, h2⟩ | hP
  · exact Or.inl ⟨he.1 p h1, he.2 p.1 h2⟩
  · exact Or.inr hP

theorem InvRefs.weaken {st : AnalyzerState} {P P' : List (String × Val)}
    (h : InvRefs st P) (hsub : ∀ q ∈ P, q ∈ P') : InvRefs st P' := by
  intro p hp
  rcases h p hp with h1 | hP
  · exact Or.inl h1
  · exact Or.inr (hsub p hP)

theorem InvRefs.discharge {st : AnalyzerState} {P : List (String × Val)}
    {e : String} {t : Val} (h : InvRefs st ((e, t) :: P))
    (hrec : (e, t) ∈ recordedPairs st.entities)
    (hkey : e ∈ st.entities.map Prod.fst) : InvRefs st P := by
  intro p hp
  rcases h p hp with h1 | hP
  · exact Or.inl h1
  · rcases List.mem_cons.mp hP with rfl | hP
    · exact Or.inl ⟨hrec, hkey⟩
    · exact Or.inr hP

theorem initEntity_entities_eq_present {n : String} {st : AnalyzerState}
    (h : (dget n st.entities).isSome) : initEntity n st = st := by
  unfold initEntity
  rw [if_pos h]

theorem initEntity_entities_eq_absent {n : String} {st : AnalyzerState}
    (h : ¬ (dget n st.entities).isSome) :
    (initEntity n st).entities = st.entities ++ [(n, [])] ∧
    (initEntity n st).relationships = st.relationships := by
  unfold initEntity
  rw [if_neg h]
  exact ⟨dinsert_absent [] (Option.not_isSome_iff_eq_none.mp h), rfl⟩

theorem initEntity_props (n : String) (st : AnalyzerState) :
    entExt st (initEntity n st) ∧
    (initEntity n st).relationships = st.relationships ∧
    (RecTemp st → RecTemp (initEntity n st)) ∧
    (NodupKeys st → NodupKeys (initEntity n st)) ∧
    n ∈ (initEntity n st).entities.map Prod.fst := by
  by_cases h : (dget n st.entities).isSome
  · rw [initEntity_entities_eq_present h]
    exact ⟨entExt_rfl, rfl, fun x => x, fun x => x, dget_isSome_iff_mem_keys.mp h⟩
  · obtain ⟨he, hr⟩ := initEntity_entities_eq_absent h
    have habs : dget n st.entities = none := Option.not_isSome_iff_eq_none.mp h
    have hnk : n ∉ st.entities.map Prod.fst := fun hm =>
      h (dget_isSome_iff_mem_keys.mpr hm)
    refine ⟨⟨?_, ?_⟩, hr, ?_, ?_, ?_⟩
    · intro p hp
      rw [he]
      unfold recordedPairs at hp ⊢
      rw [List.flatMap_append]
      exact List.mem_append_left _ hp
    · intro m hm
      rw [he, List.map_append]
      exact List.mem_append_left _ hm
    · intro hrt entry hentry r hrrec
      rw [he] at hentry
      rcases List.mem_append.mp hentry with hentry | hentry
      · exact hrt entry hentry r hrrec
      · rw [List.mem_singleton.mp hentry] at hrrec
        exact absurd hrrec (List.not_mem_nil r)
    · intro hnd
      unfold NodupKeys
      rw [he, List.map_append]
      rw [List.nodup_append]
      exact ⟨hnd, List.nodup_singleton _, fun a ha hb => by
        have han : a = n := by simpa using hb
        rw [han] at ha
        exact hnk ha⟩
    · rw [he, List.map_append]
      exact List.mem_append_right _ (by simp)

theorem getNextTempId_entities (n : String) (st : AnalyzerState) :
    ((getNextTempId n st).2).entities = st.entities := rfl

theorem getNextTempId_relationships (n : String) (st : AnalyzerState) :
    ((getNextTempId n st).2).relationships = st.relationships := rfl

theorem appendRecord_props (n : String) (r : RecT) (st : AnalyzerState)
    (hr : (dget "temp_id" r).isSome) :
    entExt st (appendRecord n r st) ∧
    (appendRecord n r st).relationships = st.relationships ∧
    (RecTemp st → RecTemp (appendRecord n r st)) ∧
    (NodupKeys st → NodupKeys (appendRecord n r st)) := by
  refine ⟨⟨?_, ?_⟩, rfl, ?_, ?_⟩
  · intro p hp
    exact recordedPairs_dmodify_append hp
  · intro m hm
    unfold appendRecord
    simp only [map_fst_dmodify]
    exact hm
  · intro hrt entry hentry r0 hr0
    rcases mem_dmodify hentry with hentry | ⟨recs, hrecs, heq⟩
    · exact hrt entry hentry r0 hr0
    · rw [heq] at hr0
      rcases List.mem_append.mp hr0 with hr0 | hr0
      · exact hrt (n, recs) hrecs r0 hr0
      · rw [List.mem_singleton.mp hr0]
        exact hr
  · intro hnd
    unfold NodupKeys appendRecord
    simp only [map_fst_dmodify]
    exact hnd

theorem appendRecord_recorded {n : String} {r : RecT} {st : AnalyzerState}
    {v : Val} (hv : dget "temp_id" r = some v)
    (hn : n ∈ st.entities.map Prod.fst) :
    (n, v) ∈ recordedPairs (appendRecord n r st).entities := by
  obtain ⟨recs, hrecs⟩ := Option.isSome_iff_exists.mp
    (dget_isSome_iff_mem_keys.mpr hn)
  have hmem := @dmodify_first _ _ _ _ (fun recs => recs ++ [r]) _ _ hrecs
  exact mem_recordedPairs_intro hmem (List.mem_append_right _ (by simp)) hv

theorem appendRelRecord_entities (rn : String) (r : RecT) (st : AnalyzerState) :
    (appendRelRecord rn r st).entities = st.entities := rfl

theorem InvRefs.appendRel {st : AnalyzerState} {P : List (String × Val)}
    {rn : String} {r : RecT} (h : InvRefs st P)
    (hr : ∀ q ∈ relRecordPairs r,
      (q ∈ recordedPairs st.entities ∧ q.1 ∈ st.entities.map Prod.fst) ∨ q ∈ P) :
    InvRefs (appendRelRecord rn r st) P := by
  intro q hq
  rw [show (appendRelRecord rn r st).entities = st.entities from rfl]
  rcases referencedPairs_dmodify_append hq with hq | hq
  · exact h q hq
  · exact hr q hq

theorem initRelationship_entities (rn p c : String) (st : AnalyzerState) :
    (initRelationship rn p c st).entities = st.entities := by
  cases hfresh : (dget rn st.relationships).isNone with
  | true => rw [initRelationship_eq_pos rn p c st hfresh]
  | false => rw [initRelationship_eq_neg rn p c st hfresh]

theorem initRelationship_refs {rn p c : String} {st : AnalyzerState} {q : String × Val}
    (h : q ∈ referencedPairs (initRelationship rn p c st).relationships) :
    q ∈ referencedPairs st.relationships := by
  cases hfresh : (dget rn st.relationships).isNone with
  | true =>
      rw [initRelationship_eq_pos rn p c st hfresh] at h
      simp only at h
      rw [referencedPairs_dinsert_empty (Option.isNone_iff_eq_none.mp hfresh)] at h
      exact h
  | false =>
      rw [initRelationship_eq_neg rn p c st hfresh] at h
      exact h

theorem InvRefs.initRel {st : AnalyzerState} {P : List (String × Val)}
    (h : InvRefs st P) (rn p c : String) : InvRefs (initRelationship rn p c st) P := by
  intro q hq
  rw [initRelationship_entities]
  exact h q (initRelationship_refs hq)

theorem entExt_of_entities_eq {st st' : AnalyzerState}
    (he : st'.entities = st.entities) : entExt st st' :=
  ⟨fun p hp => he ▸ hp, fun n hn => he ▸ hn⟩

theorem RecTemp.transportRec {st st' : AnalyzerState} (h : RecTemp st)
    (he : st'.entities = st.entities) : RecTemp st' := fun entry hentry =>
  h entry (he ▸ hentry)

theorem NodupKeys.transportKeys {st st' : AnalyzerState} (h : NodupKeys st)
    (he : st'.entities = st.entities) : NodupKeys st' := by
  unfold NodupKeys at h ⊢
  rw [he]
  exact h

theorem InvRefs.transportRefs {st st' : AnalyzerState} {P : List (String × Val)}
    (h : InvRefs st P) (he : st'.entities = st.entities)
    (hr : st'.relationships = st.relationships) : InvRefs st' P := by
  intro q hq
  rw [he]
  exact h q (hr ▸ hq)

theorem noTempIdFields_cons {k : String} {v : Json} {rest : List (String × Json)}
    (h : noTempIdFields ((k, v) :: rest) = true) :
    k ≠ "temp_id" ∧ noTempIdJson v = true ∧ noTempIdFields rest = true := by
  have h' : (decide (k ≠ "temp_id") && noTempIdJson v && noTempIdFields rest) = true := h
  simp only [Bool.and_eq_true, decide_eq_true_eq] at h'
  exact ⟨h'.1.1, h'.1.2, h'.2⟩

theorem noTempIdItems_cons {v : Json} {rest : List Json}
    (h : noTempIdItems (v :: rest) = true) :
    noTempIdJson v = true ∧ noTempIdItems rest = true := by
  have h' : (noTempIdJson v && noTempIdItems rest) = true := h
  simp only [Bool.and_eq_true] at h'
  exact h'

/-- Building a record never loses the `temp_id` key. -/
theorem processObjFields_record_isSome :
    ∀ (fields : List (String × Json)) (en : String) (tid : Int)
      (st : AnalyzerState) (rec : RecT),
      (dget "temp_id" rec).isSome →
      (dget "temp_id" (processObjFields fields en tid st rec).2).isSome := by
  intro fields
  induction fields with
  | nil => intro en tid st rec h; exact h
  | cons f rest ih =>
      obtain ⟨k, v⟩ := f
      intro en tid st rec h
      cases v with
      | scalar sv =>
          rw [show processObjFields ((k, Json.scalar sv) :: rest) en tid st rec =
              processObjFields rest en tid (processField k (Json.scalar sv) en tid st)
                (dinsert k sv rec) from rfl]
          exact ih _ _ _ _ (dget_isSome_dinsert sv h)
      | obj fs =>
          rw [show processObjFields ((k, Json.obj fs) :: rest) en tid st rec =
              processObjFields rest en tid (processField k (Json.obj fs) en tid st)
                rec from rfl]
          exact ih _ _ _ _ h
      | arr its =>
          rw [show processObjFields ((k, Json.arr its) :: rest) en tid st rec =
              processObjFields rest en tid (processField k (Json.arr its) en tid st)
                rec from rfl]
          exact ih _ _ _ _ h

/-- Without a JSON field named `temp_id`, the record's `temp_id` entry is
exactly the one it started with. -/
theorem processObjFields_record_dget :
    ∀ (fields : List (String × Json)) (en : String) (tid : Int)
      (st : AnalyzerState) (rec : RecT),
      noTempIdFields fields = true →
      dget "temp_id" (processObjFields fields en tid st rec).2 =
        dget "temp_id" rec := by
  intro fields
  induction fields with
  | nil => intro en tid st rec _; rfl
  | cons f rest ih =>
      obtain ⟨k, v⟩ := f
      intro en tid st rec hno
      obtain ⟨hk, hv, hrest⟩ := noTempIdFields_cons hno
      cases v with
      | scalar sv =>
          rw [show processObjFields ((k, Json.scalar sv) :: rest) en tid st rec =
              processObjFields rest en tid (processField k (Json.scalar sv) en tid st)
                (dinsert k sv rec) from rfl]
          rw [ih _ _ _ _ hrest]
          exact dget_dinsert_ne sv rec (fun hh => hk hh.symm)
      | obj fs =>
          rw [show processObjFields ((k, Json.obj fs) :: rest) en tid st rec =
              processObjFields rest en tid (processField k (Json.obj fs) en tid st)
                rec from rfl]
          exact ih _ _ _ _ hrest
      | arr its =>
          rw [show processObjFields ((k, Json.arr its) :: rest) en tid st rec =
              processObjFields rest en tid (processField k (Json.arr its) en tid st)
                rec from rfl]
          exact ih _ _ _ _ hrest

/-- The bundle threaded through the analyzer recursion: the entities grew,
the reference invariant holds with pending promises `P`, every record has a
`temp_id` key, and entity names are distinct. -/
def StInv (st st' : AnalyzerState) (P : List (String × Val)) : Prop :=
  entExt st st' ∧ InvRefs st' P ∧ RecTemp st' ∧ NodupKeys st'

theorem StInv.base {st : AnalyzerState} {P : List (String × Val)}
    (hinv : InvRefs st P) (hrt : RecTemp st) (hnk : NodupKeys st) :
    StInv st st P := ⟨entExt_rfl, hinv, hrt, hnk⟩

theorem StInv.comp {s1 s2 s3 : AnalyzerState} {P : List (String × Val)}
    (h12 : entExt s1 s2) (h : StInv s2 s3 P) : StInv s1 s3 P :=
  ⟨entExt_trans h12 h.1, h.2⟩

theorem StInv.weakenP {s1 s2 : AnalyzerState} {P P' : List (String × Val)}
    (h : StInv s1 s2 P) (hsub : ∀ q ∈ P, q ∈ P') : StInv s1 s2 P' :=
  ⟨h.1, h.2.1.weaken hsub, h.2.2⟩

theorem StInv.liftTempId {st st' : AnalyzerState} {P : List (String × Val)}
    (h : StInv st st' P) (en : String) : StInv st (getNextTempId en st').2 P :=
  ⟨entExt_trans h.1 (entExt_of_entities_eq rfl),
   h.2.1.transportRefs rfl rfl, h.2.2.1.transportRec rfl, h.2.2.2.transportKeys rfl⟩

theorem mem_keys_getNextTempId {st : AnalyzerState} {n en : String}
    (h : n ∈ st.entities.map Prod.fst) :
    n ∈ (getNextTempId en st).2.entities.map Prod.fst := h

theorem mem_dedup_head {α : Type} {a : α} {P : List α} :
    ∀ q ∈ a :: a :: P, q ∈ a :: P := by
  intro q h
  rcases List.mem_cons.mp h with h | h
  · exact h ▸ List.mem_cons_self _ _
  · exact h

/-- The `_init_entity` + `_init_relationship` preamble shared by the object
and array branches of `_process_field`. -/
def entryIntro (en rn pe : String) (st : AnalyzerState) : AnalyzerState :=
  initRelationship rn pe en (initEntity en st)

theorem entryIntro_props (en rn pe : String) (st : AnalyzerState)
    {P : List (String × Val)} (hinv : InvRefs st P) (hrt : RecTemp st)
    (hnk : NodupKeys st) :
    StInv st (entryIntro en rn pe st) P ∧
    en ∈ (entryIntro en rn pe st).entities.map Prod.fst := by
  obtain ⟨e1, hrel1, hrtf, hnkf, hkey1⟩ := initEntity_props en st
  have he2 := initRelationship_entities rn pe en (initEntity en st)
  have e2 := entExt_of_entities_eq he2
  refine ⟨⟨entExt_trans e1 e2,
    (hinv.mono e1 (fun q hq => by rw [hrel1] at hq; exact hq)).initRel rn pe en,
    (hrtf hrt).transportRec he2, (hnkf hnk).transportKeys he2⟩, e2.2 en hkey1⟩

theorem entryIntroT_props (en rn pe : String) (st : AnalyzerState)
    {P : List (String × Val)} (hinv : InvRefs st P) (hrt : RecTemp st)
    (hnk : NodupKeys st) :
    StInv st (getNextTempId en (entryIntro en rn pe st)).2 P ∧
    en ∈ (getNextTempId en (entryIntro en rn pe st)).2.entities.map Prod.fst := by
  obtain ⟨hs, hkey⟩ := entryIntro_props en rn pe st hinv hrt hnk
  exact ⟨hs.liftTempId en, mem_keys_getNextTempId hkey⟩

/-- Appending a record whose `temp_id` is exactly the pending promise
discharges that promise. -/
theorem appendRecordStep_props {en : String} {tid : Int} {recq : RecT}
    {stq : AnalyzerState} {P : List (String × Val)}
    (hq : dget "temp_id" recq = some (Val.vInt tid))
    (hinvq : InvRefs stq ((en, Val.vInt tid) :: P))
    (hen : en ∈ stq.entities.map Prod.fst)
    (hrtq : RecTemp stq) (hnkq : NodupKeys stq) :
    StInv stq (appendRecord en recq stq) P ∧
    en ∈ (appendRecord en recq stq).entities.map Prod.fst ∧
    (en, Val.vInt tid) ∈ recordedPairs (appendRecord en recq stq).entities := by
  obtain ⟨e4, hrel4, hrtf4, hnkf4⟩ := appendRecord_props en recq stq (by rw [hq]; rfl)
  have hen4 := e4.2 en hen
  have hrec := appendRecord_recorded hq hen
  have hinv4 : InvRefs (appendRecord en recq stq) ((en, Val.vInt tid) :: P) :=
    hinvq.mono e4 (fun q hq2 => by rw [hrel4] at hq2; exact hq2)
  exact ⟨⟨e4, hinv4.discharge hrec hen4, hrtf4 hrtq, hnkf4 hnkq⟩, hen4, hrec⟩

/-- The record-then-relationship suffix of `_process_field`: the appended
record settles the child promise, and the relationship record it appends
references only that settled pair and the parent promise. -/
def recordFinish (en rn pe : String) (pt tid : Int) (recq : RecT)
    (stq : AnalyzerState) : AnalyzerState :=
  appendRelRecord rn (mkRelRecord pe pt en tid) (appendRecord en recq stq)

theorem recordFinish_props (rn pe : String) (pt : Int) {en : String} {tid : Int}
    {recq : RecT} {stq : AnalyzerState} {P : List (String × Val)}
    (hq : dget "temp_id" recq = some (Val.vInt tid))
    (hinvq : InvRefs stq ((en, Val.vInt tid) :: P))
    (hen : en ∈ stq.entities.map Prod.fst)
    (hrtq : RecTemp stq) (hnkq : NodupKeys stq) :
    StInv stq (recordFinish en rn pe pt tid recq stq) ((pe, Val.vInt pt) :: P) ∧
    en ∈ (recordFinish en rn pe pt tid recq stq).entities.map Prod.fst := by
  obtain ⟨hs4, hen4, hrec4⟩ := appendRecordStep_props hq hinvq hen hrtq hnkq
  have hdis : InvRefs (appendRecord en recq stq) ((pe, Val.vInt pt) :: P) :=
    hs4.2.1.weaken (fun q h => List.mem_cons_of_mem _ h)
  have hfin : InvRefs (recordFinish en rn pe pt tid recq stq)
      ((pe, Val.vInt pt) :: P) :=
    hdis.appendRel (fun q hq2 => by
      rcases mkRelRecord_pairs hq2 with h | h
      · rw [h]; exact Or.inr (List.mem_cons_self _ _)
      · rw [h]; exact Or.inl ⟨hrec4, hen4⟩)
  exact ⟨⟨entExt_trans hs4.1 (entExt_of_entities_eq rfl), hfin,
    hs4.2.2.1.transportRec rfl, hs4.2.2.2.transportKeys rfl⟩, hen4⟩

mutual

/-- `_process_field` preserves the reference invariant: all relationship
records it creates reference recorded pairs or the caller's pending parent
pair, provided no JSON field is literally named `temp_id`. -/
theorem processField_refs (key : String) (value : Json) (pe : String) (pt : Int)
    (st : AnalyzerState) (P : List (String × Val))
    (hno : noTempIdJson value = true) (hinv : InvRefs st P)
    (hrt : RecTemp st) (hnk : NodupKeys st) :
    StInv st (processField key value pe pt st) ((pe, Val.vInt pt) :: P) := by
  cases value with
  | scalar sv =>
      exact ⟨entExt_rfl, hinv.weaken (fun q h => List.mem_cons_of_mem _ h), hrt, hnk⟩
  | obj fields =>
      have hno' : noTempIdFields fields = true := hno
      obtain ⟨hsP, hkeyP⟩ := entryIntroT_props (pe ++ "_" ++ key)
        (pe ++ "_" ++ (pe ++ "_" ++ key) ++ "_rel") pe st hinv hrt hnk
      have hsQ := processObjFields_refs fields (pe ++ "_" ++ key)
        (getNextTempId (pe ++ "_" ++ key)
          (entryIntro (pe ++ "_" ++ key)
            (pe ++ "_" ++ (pe ++ "_" ++ key) ++ "_rel") pe st)).1
        (getNextTempId (pe ++ "_" ++ key)
          (entryIntro (pe ++ "_" ++ key)
            (pe ++ "_" ++ (pe ++ "_" ++ key) ++ "_rel") pe st)).2
        [("temp_id", Val.vInt (getNextTempId (pe ++ "_" ++ key)
          (entryIntro (pe ++ "_" ++ key)
            (pe ++ "_" ++ (pe ++ "_" ++ key) ++ "_rel") pe st)).1)]
        P hno' hsP.2.1 hsP.2.2.1 hsP.2.2.2
      have hq : dget "temp_id"
          (processObjFields fields (pe ++ "_" ++ key)
            (getNextTempId (pe ++ "_" ++ key)
              (entryIntro (pe ++ "_" ++ key)
                (pe ++ "_" ++ (pe ++ "_" ++ key) ++ "_rel") pe st)).1
            (getNextTempId (pe ++ "_" ++ key)
              (entryIntro (pe ++ "_" ++ key)
                (pe ++ "_" ++ (pe ++ "_" ++ key) ++ "_rel") pe st)).2
            [("temp_id", Val.vInt (getNextTempId (pe ++ "_" ++ key)
              (entryIntro (pe ++ "_" ++ key)
                (pe ++ "_" ++ (pe ++ "_" ++ key) ++ "_rel") pe st)).1)]).2 =
          some (Val.vInt (getNextTempId (pe ++ "_" ++ key)
            (entryIntro (pe ++ "_" ++ key)
              (pe ++ "_" ++ (pe ++ "_" ++ key) ++ "_rel") pe st)).1) := by
        rw [processObjFields_record_dget _ _ _ _ _ hno']
        rfl
      obtain ⟨hsF, _⟩ := recordFinish_props
        (pe ++ "_" ++ (pe ++ "_" ++ key) ++ "_rel") pe pt hq hsQ.2.1
        (hsQ.1.2 _ hkeyP) hsQ.2.2.1 hsQ.2.2.2
      exact StInv.comp (entExt_trans hsP.1 hsQ.1) hsF
  | arr items =>
      have hno' : noTempIdItems items = true := hno
      obtain ⟨hsP, hkeyP⟩ := entryIntro_props key (pe ++ "_" ++ key ++ "_rel") pe st
        hinv hrt hnk
      exact StInv.comp hsP.1 (processArrayItems_refs items key pe pt
        (pe ++ "_" ++ key ++ "_rel") (entryIntro key (pe ++ "_" ++ key ++ "_rel") pe st)
        P hno' hkeyP hsP.2.1 hsP.2.2.1 hsP.2.2.2)

/-- The field loop preserves the reference invariant with the enclosing
record's pair pending. -/
theorem processObjFields_refs (fields : List (String × Json)) (en : String)
    (tid : Int) (st : AnalyzerState) (record : RecT) (P : List (String × Val))
    (hno : noTempIdFields fields = true)
    (hinv : InvRefs st P) (hrt : RecTemp st) (hnk : NodupKeys st) :
    StInv st (processObjFields fields en tid st record).1 ((en, Val.vInt tid) :: P) := by
  cases fields with
  | nil => exact ⟨entExt_rfl, hinv.weaken (fun q h => List.mem_cons_of_mem _ h), hrt, hnk⟩
  | cons f rest =>
      obtain ⟨k, v⟩ := f
      obtain ⟨hk, hv, hrest⟩ := noTempIdFields_cons hno
      cases v with
      | scalar sv =>
          exact processObjFields_refs rest en tid st (dinsert k sv record) P hrest
            hinv hrt hnk
      | obj fs =>
          have h1 := processField_refs k (Json.obj fs) en tid st P hv hinv hrt hnk
          have h2 := processObjFields_refs rest en tid
            (processField k (Json.obj fs) en tid st) record
            ((en, Val.vInt tid) :: P) hrest h1.2.1 h1.2.2.1 h1.2.2.2
          exact StInv.comp h1.1 (h2.weakenP mem_dedup_head)
      | arr xs =>
          have h1 := processField_refs k (Json.arr xs) en tid st P hv hinv hrt hnk
          have h2 := processObjFields_refs rest en tid
            (processField k (Json.arr xs) en tid st) record
            ((en, Val.vInt tid) :: P) hrest h1.2.1 h1.2.2.1 h1.2.2.2
          exact StInv.comp h1.1 (h2.weakenP mem_dedup_head)

/-- The array-item loop preserves the reference invariant with the parent
pair pending; the array entity name must already be present. -/
theorem processArrayItems_refs (items : List Json) (en pe : String) (pt : Int)
    (rn : String) (st : AnalyzerState) (P : List (String × Val))
    (hno : noTempIdItems items = true)
    (hen : en ∈ st.entities.map Prod.fst)
    (hinv : InvRefs st P) (hrt : RecTemp st) (hnk : NodupKeys st) :
    StInv st (processArrayItems items en pe pt rn st) ((pe, Val.vInt pt) :: P) := by
  cases items with
  | nil => exact ⟨entExt_rfl, hinv.weaken (fun q h => List.mem_cons_of_mem _ h), hrt, hnk⟩
  | cons item rest =>
      obtain ⟨hitem, hrest⟩ := noTempIdItems_cons hno
      cases item with
      | arr xs =>
          exact processArrayItems_refs rest en pe pt rn st P hrest hen hinv hrt hnk
      | scalar sv =>
          have hsT : StInv st (getNextTempId en st).2
              ((en, Val.vInt (getNextTempId en st).1) :: P) :=
            (StInv.base (hinv.weaken (fun q h => List.mem_cons_of_mem _ h)) hrt
              hnk).liftTempId en
          have hq : dget "temp_id"
              [("temp_id", Val.vInt (getNextTempId en st).1), ("value", sv)] =
              some (Val.vInt (getNextTempId en st).1) := rfl
          obtain ⟨hsF, hkeyF⟩ := recordFinish_props rn pe pt hq hsT.2.1
            (mem_keys_getNextTempId hen) hsT.2.2.1 hsT.2.2.2
          have hR := processArrayItems_refs rest en pe pt rn
            (recordFinish en rn pe pt (getNextTempId en st).1
              [("temp_id", Val.vInt (getNextTempId en st).1), ("value", sv)]
              (getNextTempId en st).2)
            ((pe, Val.vInt pt) :: P) hrest hkeyF hsF.2.1 hsF.2.2.1 hsF.2.2.2
          exact StInv.comp (entExt_trans (entExt_of_entities_eq rfl) hsF.1)
            (hR.weakenP mem_dedup_head)
      | obj fields =>
          have hfields : noTempIdFields fields = true := hitem
          have hsT : StInv st (getNextTempId en st).2 P :=
            (StInv.base hinv hrt hnk).liftTempId en
          have hsQ := processObjFields_refs fields en (getNextTempId en st).1
            (getNextTempId en st).2
            [("temp_id", Val.vInt (getNextTempId en st).1)] P hfields
            hsT.2.1 hsT.2.2.1 hsT.2.2.2
          have hq : dget "temp_id"
              (processObjFields fields en (getNextTempId en st).1
                (getNextTempId en st).2
                [("temp_id", Val.vInt (getNextTempId en st).1)]).2 =
              some (Val.vInt (getNextTempId en st).1) := by
            rw [processObjFields_record_dget _ _ _ _ _ hfields]
            rfl
          obtain ⟨hsF, hkeyF⟩ := recordFinish_props rn pe pt hq hsQ.2.1
            (hsQ.1.2 _ (mem_keys_getNextTempId hen)) hsQ.2.2.1 hsQ.2.2.2
          have hR := processArrayItems_refs rest en pe pt rn
            (recordFinish en rn pe pt (getNextTempId en st).1
              (processObjFields fields en (getNextTempId en st).1
                (getNextTempId en st).2
                [("temp_id", Val.vInt (getNextTempId en st).1)]).2
              (processObjFields fields en (getNextTempId en st).1
                (getNextTempId en st).2
                [("temp_id", Val.vInt (getNextTempId en st).1)]).1)
            ((pe, Val.vInt pt) :: P) hrest hkeyF hsF.2.1 hsF.2.2.1 hsF.2.2.2
          exact StInv.comp
            (entExt_trans hsT.1 (entExt_trans hsQ.1 hsF.1))
            (hR.weakenP mem_dedup_head)

end

theorem invrefs_empty : InvRefs emptyAnalyzerState [] :=
  fun p hp => absurd hp (List.not_mem_nil p)

theorem rectemp_empty : RecTemp emptyAnalyzerState :=
  fun entry h => absurd h (List.not_mem_nil entry)

theorem nodupkeys_empty : NodupKeys emptyAnalyzerState := List.nodup_nil

/-- The root-list loop preserves the reference invariant (root records
create no relationship records, so no promise is needed). -/
theorem analyzeListItems_refs (items : List Json) (rootName : String)
    (st : AnalyzerState) (P : List (String × Val))
    (hno : noTempIdItems items = true)
    (hen : rootName ∈ st.entities.map Prod.fst)
    (hinv : InvRefs st P) (hrt : RecTemp st) (hnk : NodupKeys st) :
    StInv st (analyzeListItems items rootName st) P := by
  induction items generalizing st P with
  | nil => exact StInv.base hinv hrt hnk
  | cons item rest ih =>
      obtain ⟨hitem, hrest⟩ := noTempIdItems_cons hno
      cases item with
      | arr xs => exact ih st P hrest hen hinv hrt hnk
      | scalar sv =>
          have hsT : StInv st (getNextTempId rootName st).2
              ((rootName, Val.vInt (getNextTempId rootName st).1) :: P) :=
            (StInv.base (hinv.weaken (fun q h => List.mem_cons_of_mem _ h)) hrt
              hnk).liftTempId rootName
          have hq : dget "temp_id"
              [("temp_id", Val.vInt (getNextTempId rootName st).1), ("value", sv)] =
              some (Val.vInt (getNextTempId rootName st).1) := rfl
          obtain ⟨hsA, hkeyA, _⟩ := appendRecordStep_props hq hsT.2.1
            (mem_keys_getNextTempId hen) hsT.2.2.1 hsT.2.2.2
          have hR := ih (appendRecord rootName
              [("temp_id", Val.vInt (getNextTempId rootName st).1), ("value", sv)]
              (getNextTempId rootName st).2) P hrest hkeyA
            hsA.2.1 hsA.2.2.1 hsA.2.2.2
          exact StInv.comp (entExt_trans (entExt_of_entities_eq rfl) hsA.1) hR
      | obj fields =>
          have hfields : noTempIdFields fields = true := hitem
          have hsT : StInv st (getNextTempId rootName st).2 P :=
            (StInv.base hinv hrt hnk).liftTempId rootName
          have hsQ := processObjFields_refs fields rootName
            (getNextTempId rootName st).1 (getNextTempId rootName st).2
            [("temp_id", Val.vInt (getNextTempId rootName st).1)] P hfields
            hsT.2.1 hsT.2.2.1 hsT.2.2.2
          have hq : dget "temp_id"
              (processObjFields fields rootName (getNextTempId rootName st).1
                (getNextTempId rootName st).2
                [("temp_id", Val.vInt (getNextTempId rootName st).1)]).2 =
              some (Val.vInt (getNextTempId rootName st).1) := by
            rw [processObjFields_record_dget _ _ _ _ _ hfields]
            rfl
          obtain ⟨hsA, hkeyA, _⟩ := appendRecordStep_props hq hsQ.2.1
            (hsQ.1.2 _ (mem_keys_getNextTempId hen)) hsQ.2.2.1 hsQ.2.2.2
          have hR := ih (appendRecord rootName
              (processObjFields fields rootName (getNextTempId rootName st).1
                (getNextTempId rootName st).2
                [("temp_id", Val.vInt (getNextTempId rootName st).1)]).2
              (processObjFields fields rootName (getNextTempId rootName st).1
                (getNextTempId rootName st).2
                [("temp_id", Val.vInt (getNextTempId rootName st).1)]).1)
            P hrest hkeyA hsA.2.1 hsA.2.2.1 hsA.2.2.2
          exact StInv.comp (entExt_trans hsT.1 (entExt_trans hsQ.1 hsA.1)) hR

/-- The full analyzer run leaves the reference invariant with no pending
promises: every referenced pair is recorded, and the entities mapping has
distinct names and `temp_id` on every record. -/
theorem analyze_refs (rootName : String) (json : Json)
    (hno : noTempIdJson json = true) :
    StInv emptyAnalyzerState (analyze rootName json) [] := by
  cases json with
  | scalar v => exact StInv.base invrefs_empty rectemp_empty nodupkeys_empty
  | obj fields =>
      have hno' : noTempIdFields fields = true := hno
      obtain ⟨e1, hrel1, hrtf, hnkf, hkey1⟩ :=
        initEntity_props rootName emptyAnalyzerState
      have hs1 : StInv emptyAnalyzerState (initEntity rootName emptyAnalyzerState) [] :=
        ⟨e1, invrefs_empty.mono e1 (fun q hq => by rw [hrel1] at hq; exact hq),
         hrtf rectemp_empty, hnkf nodupkeys_empty⟩
      have hsT := hs1.liftTempId rootName
      have hsQ := processObjFields_refs fields rootName
        (getNextTempId rootName (initEntity rootName emptyAnalyzerState)).1
        (getNextTempId rootName (initEntity rootName emptyAnalyzerState)).2
        [("temp_id", Val.vInt
          (getNextTempId rootName (initEntity rootName emptyAnalyzerState)).1)]
        [] hno' hsT.2.1 hsT.2.2.1 hsT.2.2.2
      have hq : dget "temp_id"
          (processObjFields fields rootName
            (getNextTempId rootName (initEntity rootName emptyAnalyzerState)).1
            (getNextTempId rootName (initEntity rootName emptyAnalyzerState)).2
            [("temp_id", Val.vInt
              (getNextTempId rootName (initEntity rootName emptyAnalyzerState)).1)]).2 =
          some (Val.vInt
            (getNextTempId rootName (initEntity rootName emptyAnalyzerState)).1) := by
        rw [processObjFields_record_dget _ _ _ _ _ hno']
        rfl
      obtain ⟨hsA, _, _⟩ := appendRecordStep_props hq hsQ.2.1
        (hsQ.1.2 _ (mem_keys_getNextTempId hkey1)) hsQ.2.2.1 hsQ.2.2.2
      exact StInv.comp (entExt_trans hsT.1 hsQ.1) hsA
  | arr items =>
      have hno' : noTempIdItems items = true := hno
      obtain ⟨e1, hrel1, hrtf, hnkf, hkey1⟩ :=
        initEntity_props rootName emptyAnalyzerState
      have hs1 : StInv emptyAnalyzerState (initEntity rootName emptyAnalyzerState) [] :=
        ⟨e1, invrefs_empty.mono e1 (fun q hq => by rw [hrel1] at hq; exact hq),
         hrtf rectemp_empty, hnkf nodupkeys_empty⟩
      exact StInv.comp hs1.1 (analyzeListItems_refs items rootName
        (initEntity rootName emptyAnalyzerState) [] hno' hkey1
        hs1.2.1 hs1.2.2.1 hs1.2.2.2)

/-! ## Success of build_tables when every record carries its temp id -/

theorem dget_of_mem_nodup {κ α : Type} [DecidableEq κ] {l : List (κ × α)}
    {e : κ × α} (hnd : (l.map Prod.fst).Nodup) (he : e ∈ l) :
    dget e.1 l = some e.2 := by
  induction l with
  | nil => exact absurd he (List.not_mem_nil e)
  | cons kv rest ih =>
      have hnd2 : (kv.1 :: rest.map Prod.fst).Nodup := by
        rw [List.map_cons] at hnd
        exact hnd
      have hnd' := List.nodup_cons.mp hnd2
      rcases List.mem_cons.mp he with rfl | he
      · rw [dget, if_pos rfl]
      · rw [dget]
        by_cases hk : kv.1 = e.1
        · have : e.1 ∈ rest.map Prod.fst := List.mem_map.mpr ⟨e, he, rfl⟩
          exact absurd (hk ▸ this) hnd'.1
        · rw [if_neg hk]
          exact ih hnd'.2 he

theorem foldlM_isSome {α β : Type} {f : β → α → Option β} {l : List α} :
    ∀ b, (∀ a ∈ l, ∀ b0, (f b0 a).isSome) → (l.foldlM f b).isSome := by
  induction l with
  | nil => intro b _; rfl
  | cons a rest ih =>
      intro b h
      obtain ⟨b2, hb2⟩ := Option.isSome_iff_exists.mp (h a (List.mem_cons_self _ _) b)
      rw [show (a :: rest).foldlM f b = (f b a).bind (fun b2 => rest.foldlM f b2)
        from rfl]
      rw [hb2]
      exact ih b2 (fun a3 h3 b3 => h a3 (List.mem_cons_of_mem _ h3) b3)

theorem mapM_loop_isSome {α β : Type} {f : α → Option β} :
    ∀ (l : List α) (acc : List β), (∀ a ∈ l, (f a).isSome) →
      (List.mapM.loop f l acc).isSome := by
  intro l
  induction l with
  | nil => intro acc _; rfl
  | cons a rest ih =>
      intro acc h
      obtain ⟨b, hb⟩ := Option.isSome_iff_exists.mp (h a (List.mem_cons_self _ _))
      rw [show List.mapM.loop f (a :: rest) acc =
        (f a).bind (fun b => List.mapM.loop f rest (b :: acc)) from rfl]
      rw [hb]
      exact ih (b :: acc) (fun x hx => h x (List.mem_cons_of_mem _ hx))

theorem mapM_isSome {α β : Type} {f : α → Option β} {l : List α}
    (h : ∀ a ∈ l, (f a).isSome) : (l.mapM f).isSome :=
  mapM_loop_isSome l [] h

/-- The leaf loop never fails when every original record carries a
`temp_id` key. -/
theorem runLeafLoop_isSome {E R : TablesT}
    (hrt : ∀ entry ∈ E, ∀ r ∈ entry.2, (dget "temp_id" r).isSome) :
    ∀ (fuel : Nat) (leaves processed : List String) (st : BuilderState),
      BInv E R processed st → (∀ n ∈ leaves, n ∈ E.map Prod.fst) →
      (runLeafLoop fuel leaves processed st).isSome := by
  intro fuel
  induction fuel with
  | zero =>
      intro leaves processed st _ _
      cases leaves with
      | nil => rfl
      | cons a l => rfl
  | succ fuel ih =>
      intro leaves processed st hinv hleaves
      cases leaves with
      | nil => rfl
      | cons name leaves =>
          by_cases hmem : name ∈ processed
          · rw [runLeafLoop, if_pos hmem]
            refine ih _ _ _ hinv ?_
            intro n hn
            rcases mem_updateLeafEntities hn with hn | hn
            · exact hleaves n (List.mem_cons_of_mem _ hn)
            · exact hinv.keysEq ▸ hn
          · rw [runLeafLoop, if_neg hmem]
            have hpe : (processEntity name st).isSome := by
              apply processEntity_isSome
              rw [hinv.untouched name hmem]
              cases hE : dget name E with
              | none => intro r hr; exact absurd hr (List.not_mem_nil r)
              | some orig =>
                  intro r hr
                  exact hrt (name, orig) (dget_some_mem hE) r hr
            obtain ⟨st2, hst2⟩ := Option.isSome_iff_exists.mp hpe
            rw [hst2]
            have hstep := BInv.step hinv (hleaves name (List.mem_cons_self _ _))
              hmem hst2
            refine ih _ _ _ hstep ?_
            intro n hn
            rcases mem_updateLeafEntities hn with hn | hn
            · exact hleaves n (List.mem_cons_of_mem _ hn)
            · exact hstep.keysEq ▸ hn

/-- The remaining-entities loop never fails under the same condition. -/
theorem processRemaining_isSome {E R : TablesT} :
    ∀ (names processed : List String) (st : BuilderState),
      (∀ entry ∈ E, ∀ r ∈ entry.2, (dget "temp_id" r).isSome) →
      BInv E R processed st → names.Nodup →
      (∀ n ∈ names, n ∈ E.map Prod.fst ∧ n ∉ processed) →
      (processRemaining names st).isSome := by
  intro names
  induction names with
  | nil => intro processed st _ _ _ _; rfl
  | cons n rest ih =>
      intro processed st hrt hinv hnd hcond
      have hpe : (processEntity n st).isSome := by
        apply processEntity_isSome
        rw [hinv.untouched n (hcond n (List.mem_cons_self _ _)).2]
        cases hE : dget n E with
        | none => intro r hr; exact absurd hr (List.not_mem_nil r)
        | some orig =>
            intro r hr
            exact hrt (n, orig) (dget_some_mem hE) r hr
      obtain ⟨st2, hst2⟩ := Option.isSome_iff_exists.mp hpe
      have hstep := BInv.step hinv (hcond n (List.mem_cons_self _ _)).1
        (hcond n (List.mem_cons_self _ _)).2 hst2
      rw [show processRemaining (n :: rest) st =
        (processEntity n st).bind (fun st2 => processRemaining rest st2) from rfl]
      rw [hst2]
      exact ih (processed ++ [n]) st2 hrt hstep (List.nodup_cons.mp hnd).2
        (fun m hm => ⟨(hcond m (List.mem_cons_of_mem _ hm)).1, by
          simp only [List.mem_append, List.mem_singleton, not_or]
          exact ⟨(hcond m (List.mem_cons_of_mem _ hm)).2,
            fun hh => (List.nodup_cons.mp hnd).1 (hh ▸ hm)⟩⟩)

/-- After every entity is processed, every relationship record resolves:
each `_temp_id` column names a processed entity whose id map covers the
referenced temp id. -/
theorem resolveRelRecord_isSome {E R : TablesT} {st : BuilderState}
    {processed : List String} (hinv : BInv E R processed st)
    (hcover : ∀ n ∈ E.map Prod.fst, n ∈ processed)
    (hkeys : (E.map Prod.fst).Nodup)
    (href : ∀ p ∈ referencedPairs R, p ∈ recordedPairs E ∧ p.1 ∈ E.map Prod.fst)
    {r : RecT} (hr : ∀ q ∈ relRecordPairs r, q ∈ referencedPairs R) :
    (resolveRelRecord st.idMaps r).isSome := by
  unfold resolveRelRecord
  apply foldlM_isSome
  intro kv hkv acc
  by_cases ht : isTempIdKey kv.1 = true
  · rw [if_pos ht]
    have hq : (stripTempIdKey kv.1, kv.2) ∈ relRecordPairs r := by
      unfold relRecordPairs
      rw [List.mem_filterMap]
      exact ⟨kv, hkv, by rw [if_pos ht]⟩
    obtain ⟨hrec, hkey⟩ := href _ (hr _ hq)
    obtain ⟨m, hm, hmm⟩ := hinv.idm (stripTempIdKey kv.1)
      (hcover (stripTempIdKey kv.1) hkey)
    obtain ⟨entry, he, h1, r0, hr0, htv⟩ := mem_recordedPairs_elim hrec
    have h1' : entry.1 = stripTempIdKey kv.1 := h1
    have htv' : dget "temp_id" r0 = some kv.2 := htv
    have horig : dget (stripTempIdKey kv.1) E = some entry.2 := by
      rw [← h1']
      exact dget_of_mem_nodup hkeys he
    have hrid : (dget kv.2 m).isSome := hmm entry.2 horig r0 hr0 kv.2 htv'
    obtain ⟨rid, hrid'⟩ := Option.isSome_iff_exists.mp hrid
    rw [show ((do
        let m ← dget (stripTempIdKey kv.1) st.idMaps
        let rid ← dget kv.2 m
        pure (dinsert (stripTempIdKey kv.1 ++ "_id") (Val.vInt rid) acc)) :
        Option RecT) =
      (dget (stripTempIdKey kv.1) st.idMaps).bind (fun m =>
        (dget kv.2 m).bind (fun rid =>
          some (dinsert (stripTempIdKey kv.1 ++ "_id") (Val.vInt rid) acc)))
      from rfl]
    simp [hm, hrid']
  · rw [if_neg ht]
    rfl

/-- `_process_relationships` never fails under full coverage. -/
theorem processRelationships_isSome {E R : TablesT} {st : BuilderState}
    {processed : List String} (hinv : BInv E R processed st)
    (hcover : ∀ n ∈ E.map Prod.fst, n ∈ processed)
    (hkeys : (E.map Prod.fst).Nodup)
    (href : ∀ p ∈ referencedPairs R, p ∈ recordedPairs E ∧ p.1 ∈ E.map Prod.fst) :
    (processRelationships st).isSome := by
  unfold processRelationships
  have hfold : (st.relationships.foldlM (fun (tabs : TablesT) (e : String × List RecT) =>
      if e.2.isEmpty then pure tabs
      else do
        let recs ← e.2.mapM (resolveRelRecord st.idMaps)
        pure (dinsert e.1 recs tabs)) st.tables).isSome := by
    apply foldlM_isSome
    intro e he tabs
    by_cases hemp : e.2.isEmpty = true
    · rw [if_pos hemp]
      rfl
    · rw [if_neg hemp]
      have hmap : (e.2.mapM (resolveRelRecord st.idMaps)).isSome := by
        apply mapM_isSome
        intro r hr
        refine resolveRelRecord_isSome hinv hcover hkeys href ?_
        intro q hq
        refine mem_referencedPairs_intro ?_ hr hq
        rw [← hinv.rels]
        exact he
      obtain ⟨recs, hrecs⟩ := Option.isSome_iff_exists.mp hmap
      rw [show ((do
          let recs ← e.2.mapM (resolveRelRecord st.idMaps)
          pure (dinsert e.1 recs tabs)) : Option TablesT) =
        (e.2.mapM (resolveRelRecord st.idMaps)).bind (fun recs =>
          some (dinsert e.1 recs tabs)) from rfl]
      rw [hrecs]
      rfl
  obtain ⟨t, ht⟩ := Option.isSome_iff_exists.mp hfold
  rw [show ((do
      let tables ← st.relationships.foldlM (fun (tabs : TablesT) (e : String × List RecT) =>
        if e.2.isEmpty then pure tabs
        else do
          let recs ← e.2.mapM (resolveRelRecord st.idMaps)
          pure (dinsert e.1 recs tabs)) st.tables
      return { st with tables := tables }) : Option BuilderState) =
    (st.relationships.foldlM (fun (tabs : TablesT) (e : String × List RecT) =>
      if e.2.isEmpty then pure tabs
      else do
        let recs ← e.2.mapM (resolveRelRecord st.idMaps)
        pure (dinsert e.1 recs tabs)) st.tables).bind (fun tables =>
      some { st with tables := tables }) from rfl]
  rw [ht]
  rfl

/-- `build_tables` succeeds whenever entity names are distinct, every record
carries a `temp_id` key, and every pair referenced by a relationship record
is recorded under an existing entity. -/
theorem buildTables_isSome {E R : TablesT}
    (hkeys : (E.map Prod.fst).Nodup)
    (hrt : ∀ entry ∈ E, ∀ r ∈ entry.2, (dget "temp_id" r).isSome)
    (href : ∀ p ∈ referencedPairs R, p ∈ recordedPairs E ∧ p.1 ∈ E.map Prod.fst) :
    (buildTables E R).isSome := by
  have h0 : BInv E R [] ⟨E, R, [], []⟩ := BInv.init E R
  have hleaves : ∀ n ∈ findLeafEntities E R, n ∈ E.map Prod.fst :=
    fun n hn => (List.mem_filter.mp hn).1
  obtain ⟨q, hq⟩ := Option.isSome_iff_exists.mp
    (runLeafLoop_isSome hrt (E.length + (findLeafEntities E R).length + 1)
      (findLeafEntities E R) [] ⟨E, R, [], []⟩ h0 hleaves)
  have hinvq := runLeafLoop_inv _ _ _ _ _ h0 hleaves hq
  have hnames : ∀ n, n ∈ (q.2.entities.map Prod.fst).filter
      (fun n => !(q.1.contains n)) → n ∈ E.map Prod.fst ∧ n ∉ q.1 := by
    intro n hn
    obtain ⟨h1, h2⟩ := List.mem_filter.mp hn
    refine ⟨hinvq.keysEq ▸ h1, ?_⟩
    intro hmem
    have hcon : q.1.contains n = true := List.elem_iff.mpr hmem
    rw [hcon] at h2
    simp at h2
  have hnd : ((q.2.entities.map Prod.fst).filter
      (fun n => !(q.1.contains n))).Nodup :=
    List.Nodup.filter _ (hinvq.keysEq ▸ hkeys)
  obtain ⟨st1, hst1⟩ := Option.isSome_iff_exists.mp
    (processRemaining_isSome _ _ _ hrt hinvq hnd hnames)
  have hinv1 := processRemaining_inv _ _ _ _ hinvq hnd hnames hst1
  have hcover : ∀ n ∈ E.map Prod.fst,
      n ∈ q.1 ++ (q.2.entities.map Prod.fst).filter (fun n => !(q.1.contains n)) := by
    intro n hn
    rw [List.mem_append]
    by_cases hq1 : n ∈ q.1
    · exact Or.inl hq1
    · refine Or.inr (List.mem_filter.mpr ⟨hinvq.keysEq ▸ hn, ?_⟩)
      cases hcon : q.1.contains n with
      | false => simp [hcon]
      | true => exact absurd (List.elem_iff.mp hcon) hq1
  have hrel := processRelationships_isSome hinv1 hcover hkeys href
  obtain ⟨st2, hst2⟩ := Option.isSome_iff_exists.mp hrel
  rw [show buildTables E R =
    (runLeafLoop (E.length + (findLeafEntities E R).length + 1)
      (findLeafEntities E R) [] ⟨E, R, [], []⟩).bind (fun q =>
      (processRemaining
        ((q.2.entities.map Prod.fst).filter (fun n => !(q.1.contains n)))
        q.2).bind processRelationships) from rfl]
  rw [hq]
  rw [show (Option.some q).bind (fun q =>
      (processRemaining
        ((q.2.entities.map Prod.fst).filter (fun n => !(q.1.contains n)))
        q.2).bind processRelationships) =
    (processRemaining
      ((q.2.entities.map Prod.fst).filter (fun n => !(q.1.contains n)))
      q.2).bind processRelationships from rfl]
  rw [hst1]
  rw [show (Option.some st1).bind processRelationships =
    processRelationships st1 from rfl]
  rw [hst2]
  rfl

/-- C9 (amended): for every JSON input NONE of whose object fields is
literally named `temp_id`, every temp id referenced by a relationship
record of the analyzer output belongs to a record appended to the
corresponding entity, and `build_tables` (which resolves every junction
record through the id maps after processing all entities) succeeds with no
missing-key failure.  Without the amendment the claim is false: a JSON
field named `temp_id` overwrites the transient id in the record under
construction, the referenced pair is never recorded, and junction
resolution fails (see the counterexample). -/
theorem junction_resolution_succeeds_without_temp_id_fields
    (rootName : String) (json : Json) (hno : noTempIdJson json = true) :
    (∀ p ∈ referencedPairs (analyze rootName json).relationships,
      p ∈ recordedPairs (analyze rootName json).entities ∧
      p.1 ∈ (analyze rootName json).entities.map Prod.fst) ∧
    (buildTables (analyze rootName json).entities
      (analyze rootName json).relationships).isSome := by
  have hs := analyze_refs rootName json hno
  have href : ∀ p ∈ referencedPairs (analyze rootName json).relationships,
      p ∈ recordedPairs (analyze rootName json).entities ∧
      p.1 ∈ (analyze rootName json).entities.map Prod.fst := by
    intro p hp
    rcases hs.2.1 p hp with h | hP
    · exact h
    · exact absurd hP (List.not_mem_nil p)
  exact ⟨href, buildTables_isSome hs.2.2.2 hs.2.2.1 href⟩

/-- Witness for the amended C9 at the concrete input `{"items": [1,2,3]}`:
the hypothesis evaluates to true and the theorem applies. -/
theorem junction_resolution_succeeds_without_temp_id_fields_witness :
    noTempIdJson jsonScenB = true ∧
    (buildTables (analyze "root" jsonScenB).entities
      (analyze "root" jsonScenB).relationships).isSome :=
  ⟨by decide,
   (junction_resolution_succeeds_without_temp_id_fields "root" jsonScenB
     (by decide)).2⟩

end JsonToSql
